import Mathlib

/-!
# Tasklets: stackless coroutines on a shared scratch stack

A verification development for `tasklets.hpp`.  The header implements coroutines with
GCC computed gotos: a body is an ordinary function that stores the address of a label in
the scratch stack before it returns, and jumps to it when it is entered again.

The embedding keeps the macros as the unit of execution.  A function body is a list of
instructions addressed by their position; the label `ALPHA` that a `TASKLET_YIELD`,
`TASKLET_CALL` or `TASKLET_WAIT` at position `pc` of function `fn` declares is the pair
`(fn, pc)`.  Machine integers are natural numbers with explicit reduction modulo `2^16`
(the cursor and the capacity are `uint16_t`) or modulo the width of `size_t`.
`assert` is taken to be active: a failed assertion aborts the run.  The scratch stack is a
word-indexed store; that the indices used stay below the capacity is a property to be
proved, not a side condition of the store.
-/

namespace Tasklets

/-- One word of the scratch stack: a stored value of a tasklet-local variable, or the
address of a label (`&&ALPHA`) of the macro at position `pc` of function `fn`. -/
inductive Word where
  | val (v : Int)
  | lbl (fn pc : Nat)
  deriving DecidableEq, Repr

/-- Ways in which a run stops without returning: a failed `assert`, a computed `goto`
whose operand is not the address of a label of the executing function (undefined
behaviour in C++), or exhaustion of the step budget of the interpreter. -/
inductive Err where
  | assertFail
  | badJump
  | outOfFuel
  deriving DecidableEq, Repr

/-- Observation log entries (ghost state): an ordinary statement at `(fn, pc)` was
executed; the value of the `k`-th local of `fn` was constructed / destructed in slot
`slot`; `TASKLET_END` of `fn` was executed. -/
inductive Event where
  | exec (fn pc : Nat)
  | ctor (fn k slot : Nat)
  | dtor (fn k slot : Nat)
  | tend (fn : Nat)
  deriving DecidableEq, Repr

/-- The fields of `struct Tasklet` (lines 22-29), followed by the members of the derived
class (`user`), the behaviour of the starters of the `TASKLET_WAIT`s still to be executed
(`starters`: `true` for a starter that calls `resume()` before it returns, as
`immediate_resume` does; `false`, or no entry, for one that returns without resuming) and
the observation log. -/
structure Tasklet (U : Type) where
  stack_size : Nat
  sp : Nat
  fresh : Bool
  norecurse : Bool
  nopopv : Bool
  ended : Bool
  stack : Nat → Word
  user : U
  starters : List Bool
  trace : List Event

/-- Addition on `uint16_t`: the sum is computed in a wider type and truncated on the
assignment to `_sp`. -/
def add16 (a b : Nat) : Nat := (a + b) % 65536

/-- Subtraction on `uint16_t`, likewise truncated to 16 bits. -/
def sub16 (a b : Nat) : Nat := (a + (65536 - b % 65536)) % 65536

/-- The macro `_TSKL_ALIGN(_X)` (line 15),
`(((_X) + sizeof(uintptr_t) - 1) & ~(sizeof(uintptr_t) - 1))`, for a platform whose
`uintptr_t` and `size_t` have `W` bytes: the arithmetic is unsigned of `8 * W` bits. -/
def _TSKL_ALIGN (W x : Nat) : Nat :=
  ((x + W - 1) % 2 ^ (8 * W)) &&& (2 ^ (8 * W) - 1 - (W - 1))

/-- The number of words by which a `TaskletVar<T>` with `sizeof(T) = bytes` moves the
cursor: `_TSKL_ALIGN(sizeof(T))/sizeof(uintptr_t)` (lines 137 and 165). -/
def varWords (W bytes : Nat) : Nat := _TSKL_ALIGN W bytes / W

/-- The constructor `Tasklet::Tasklet(void *stack, uintptr_t stack_size)` (lines 31-38).
It assigns `_sp`, `_stack`, `_stack_size`, `_fresh`, `_nopopv` and `_norecurse`; `_ended`
is not assigned and keeps the bit `prior_ended` that the storage of the object held. -/
def Tasklet.create {U : Type} (W : Nat) (stack : Nat → Word) (stack_bytes : Nat)
    (prior_ended : Bool) (user : U) (starters : List Bool) : Tasklet U :=
  { sp := 0
    stack := stack
    stack_size := (stack_bytes / W) % 65536
    fresh := true
    nopopv := false
    norecurse := false
    ended := prior_ended
    user := user
    starters := starters
    trace := [] }

/-- The method `Tasklet::is_running` (lines 45-47). -/
def Tasklet.is_running {U : Type} (t : Tasklet U) : Bool := !t.ended

/-- Store `w` in slot `i`. -/
def setSlot (s : Nat → Word) (i : Nat) (w : Word) : Nat → Word :=
  fun j => if j = i then w else s j

/-- Store the values `ws` through the proxies bound to the slots `vars`, in order. -/
def writeVars : List Nat → List Word → (Nat → Word) → (Nat → Word)
  | v :: vs, w :: ws, s => writeVars vs ws (setSlot s v w)
  | _, _, s => s

/-- The pair `_sp += k; assert(_sp < _stack_size)` of `TaskletVar::push` (lines 165-166)
and of `TASKLET_CALL` (lines 239-240). -/
def advance {U : Type} (t : Tasklet U) (k : Nat) : Except Err (Tasklet U) :=
  let t1 := { t with sp := add16 t.sp k }
  if t1.sp < t1.stack_size then .ok t1 else .error .assertFail

/-- The method `TaskletVar::push` (lines 156-168) for a `T` of `bytes` bytes: returns the
slot `var` the proxy is bound to, and the tasklet. -/
def push {U : Type} (W : Nat) (t : Tasklet U) (bytes : Nat) : Except Err (Nat × Tasklet U) :=
  let var := t.sp
  if !t.norecurse then
    (advance t (varWords W bytes)).map (fun t1 => (var, t1))
  else .ok (var, t)

/-- A declaration `TaskletVar<T> x(tskl)` (`init = none`) or `TaskletVar<T> x(tskl, v)`
(`init = some v`) with `sizeof(T) = bytes`. -/
structure VarDecl where
  bytes : Nat
  init : Option Int
  deriving DecidableEq, Repr

/-- The word that placement new writes: `T()` value-initialises, `T(v)` copies `v`. -/
def VarDecl.initWord (d : VarDecl) : Word := .val (d.init.getD 0)

/-- The instructions of a function body.  `act f` is an ordinary statement: it reads and
writes the members of the derived class and, through the proxies of the function, the
values of its tasklet-local variables.  `br c target` is a conditional jump (loops, early
`return`).  The others are the macros `TASKLET_YIELD`, `TASKLET_CALL(fn)`, `TASKLET_WAIT`
and `TASKLET_END`. -/
inductive Instr (U : Type) where
  | act (f : U → List Word → U × List Word)
  | br (c : U → List Word → Bool) (target : Nat)
  | yield
  | call (fn : Nat)
  | wait
  | tend

/-- A function written with the macros: the `TaskletVar` declarations that precede
`TASKLET_BEGIN`, and the instructions after it. -/
structure Body (U : Type) where
  vars : List VarDecl
  code : List (Instr U)

/-- Where execution of a body continues: at the instruction `pc`, or at the label `ALPHA`
inside the macro at `pc`. -/
inductive Entry where
  | at (pc : Nat)
  | alpha (pc : Nat)
  deriving DecidableEq, Repr

/-- The constructors of the proxies of `fn`, in declaration order, from the `k`-th on
(lines 85-115): `push`, then placement new if `_fresh`.  Returns the slots the proxies
are bound to. -/
def construct {U : Type} (W fn : Nat) :
    List VarDecl → Nat → Tasklet U → Except Err (List Nat × Tasklet U)
  | [], _, t => .ok ([], t)
  | d :: ds, k, t =>
    match push W t d.bytes with
    | .error e => .error e
    | .ok (var, t1) =>
      let t2 := if t1.fresh then
          { t1 with stack := setSlot t1.stack var d.initWord
                    trace := t1.trace ++ [Event.ctor fn k var] }
        else t1
      match construct W fn ds (k + 1) t2 with
      | .error e => .error e
      | .ok (vs, t3) => .ok (var :: vs, t3)

/-- The destructor `TaskletVar::~TaskletVar` (lines 117-140) of the `k`-th proxy of `fn`,
bound to slot `var`. -/
def destroy1 {U : Type} (W fn k : Nat) (d : VarDecl) (var : Nat) (t : Tasklet U) : Tasklet U :=
  let t1 := if t.ended then { t with trace := t.trace ++ [Event.dtor fn k var] } else t
  if !t1.nopopv then { t1 with sp := sub16 t1.sp (varWords W d.bytes) } else t1

/-- The destructors of the proxies of `fn` at a `return`, in reverse declaration
order. -/
def destruct {U : Type} (W fn : Nat) : List VarDecl → List Nat → Nat → Tasklet U → Tasklet U
  | d :: ds, v :: vs, k, t => destroy1 W fn k d v (destruct W fn ds vs (k + 1) t)
  | _, _, _, t => t

/-- The macro `__TASKLET_BEGIN` (lines 205-208) in function `fn`: `_ended = false`, then
either the first entry, or `goto *_stack[_sp]`. -/
def TASKLET_BEGIN {U : Type} (fn : Nat) (t : Tasklet U) : Except Err (Entry × Tasklet U) :=
  let t1 := { t with ended := false }
  if t1.fresh then .ok (.at 0, { t1 with fresh := false })
  else
    match t1.stack t1.sp with
    | .lbl f pc => if f = fn then .ok (.alpha pc, t1) else .error .badJump
    | .val _ => .error .badJump

/-- Entry of function `fn`: its proxy constructors, then `TASKLET_BEGIN`. -/
def enter {U : Type} (W : Nat) (prog : Nat → Body U) (fn : Nat) (t : Tasklet U) :
    Except Err (List Nat × Entry × Tasklet U) :=
  match construct W fn (prog fn).vars 0 t with
  | .error e => .error e
  | .ok (vars, t1) =>
    match TASKLET_BEGIN fn t1 with
    | .error e => .error e
    | .ok (e, t2) => .ok (vars, e, t2)

/-- A complete invocation of function `fn`, given how bodies execute (`r`): entry, body,
and the proxy destructors at the `return`. -/
def invoke {U : Type} (W : Nat) (prog : Nat → Body U)
    (r : Nat → List Nat → Entry → Tasklet U → Except Err (Tasklet U))
    (fn : Nat) (t : Tasklet U) : Except Err (Tasklet U) :=
  match enter W prog fn t with
  | .error e => .error e
  | .ok (vars, e, t1) =>
    match r fn vars e t1 with
    | .error e => .error e
    | .ok t2 => .ok (destruct W fn (prog fn).vars vars 0 t2)

/-- The first half of `TASKLET_CALL` (lines 236-237): store the label, set `_fresh`. -/
def callStore {U : Type} (fn pc : Nat) (t : Tasklet U) : Tasklet U :=
  { t with stack := setSlot t.stack t.sp (.lbl fn pc), fresh := true }

/-- `TASKLET_CALL` from its label to the call (lines 239-241). -/
def callEnter {U : Type} (t : Tasklet U) : Except Err (Tasklet U) :=
  match advance t 1 with
  | .error e => .error e
  | .ok t1 => .ok { t1 with ended := true }

/-- `TASKLET_CALL` after the callee returned (lines 243-244). -/
def callExit {U : Type} (t : Tasklet U) : Tasklet U :=
  { t with fresh := false, sp := sub16 t.sp 1 }

/-- `TASKLET_WAIT` before the starter is called (lines 274-275). -/
def waitStore {U : Type} (fn pc : Nat) (t : Tasklet U) : Tasklet U :=
  { t with stack := setSlot t.stack t.sp (.lbl fn pc), norecurse := true }

/-- Execution of the body of function `fn` of the program `prog` (function `0` is the
`main` of the tasklet) from `e`, with the proxies of this invocation bound to `vars`,
until the function returns.  The result is the tasklet at the `return`, before the proxy
destructors run.  Each instruction takes one unit of `fuel`. -/
def run {U : Type} (W : Nat) (prog : Nat → Body U) :
    Nat → Nat → List Nat → Entry → Tasklet U → Except Err (Tasklet U)
  | 0, _, _, _, _ => .error .outOfFuel
  | fuel + 1, fn, vars, .at pc, t =>
    match (prog fn).code[pc]? with
    | none => .ok t
    | some (.act f) =>
      let r := f t.user (vars.map t.stack)
      run W prog fuel fn vars (.at (pc + 1))
        { t with user := r.1, stack := writeVars vars r.2 t.stack
                 trace := t.trace ++ [Event.exec fn pc] }
    | some (.br c target) =>
      run W prog fuel fn vars (.at (if c t.user (vars.map t.stack) then target else pc + 1)) t
    | some .yield => .ok { t with stack := setSlot t.stack t.sp (.lbl fn pc) }
    | some .tend =>
      run W prog fuel fn vars (.at (pc + 1))
        { t with ended := true, fresh := false, trace := t.trace ++ [Event.tend fn] }
    | some (.call _) => run W prog fuel fn vars (.alpha pc) (callStore fn pc t)
    | some .wait =>
      let t1 := waitStore fn pc t
      let started : Except Err (Tasklet U) :=
        match t1.starters with
        | true :: rest => invoke W prog (run W prog fuel) 0 { t1 with starters := rest }
        | false :: rest => .ok { t1 with starters := rest }
        | [] => .ok t1
      match started with
      | .error e => .error e
      | .ok t2 =>
        if t2.norecurse then .ok { t2 with norecurse := false }
        else run W prog fuel fn vars (.alpha pc) { t2 with nopopv := false }
  | fuel + 1, fn, vars, .alpha pc, t =>
    match (prog fn).code[pc]? with
    | some .yield => run W prog fuel fn vars (.at (pc + 1)) t
    | some (.call g) =>
      match callEnter t with
      | .error e => .error e
      | .ok t1 =>
        match invoke W prog (run W prog fuel) g t1 with
        | .error e => .error e
        | .ok t2 =>
          let t3 := callExit t2
          if !t3.ended then .ok t3 else run W prog fuel fn vars (.at (pc + 1)) t3
    | some .wait =>
      if t.norecurse then .ok { t with nopopv := true, norecurse := false }
      else run W prog fuel fn vars (.at (pc + 1)) t
    | _ => .error .badJump

/-- The virtual method `main()` of the tasklet: an invocation of function `0`. -/
def Tasklet.main {U : Type} (W : Nat) (prog : Nat → Body U) (fuel : Nat) (t : Tasklet U) :
    Except Err (Tasklet U) :=
  invoke W prog (run W prog fuel) 0 t

/-- The method `Tasklet::start` (lines 52-54). -/
def Tasklet.start {U : Type} (W : Nat) (prog : Nat → Body U) (fuel : Nat) (t : Tasklet U) :
    Except Err (Tasklet U) :=
  Tasklet.main W prog fuel t

/-- The method `Tasklet::resume` (lines 59-61). -/
def Tasklet.resume {U : Type} (W : Nat) (prog : Nat → Body U) (fuel : Nat) (t : Tasklet U) :
    Except Err (Tasklet U) :=
  Tasklet.main W prog fuel t

/-- The call `resume()` made `n` times in a row. -/
def resumes {U : Type} (W : Nat) (prog : Nat → Body U) (fuel : Nat) :
    Nat → Tasklet U → Except Err (Tasklet U)
  | 0, t => .ok t
  | n + 1, t =>
    match Tasklet.resume W prog fuel t with
    | .error e => .error e
    | .ok t1 => resumes W prog fuel n t1

/-- The loop `while (t.is_running()) t.resume();` of the tests, cut off after `n`
iterations. -/
def whileRunning {U : Type} (W : Nat) (prog : Nat → Body U) (fuel : Nat) :
    Nat → Tasklet U → Except Err (Tasklet U)
  | 0, t => if t.is_running then .error .outOfFuel else .ok t
  | n + 1, t =>
    if t.is_running then
      match Tasklet.resume W prog fuel t with
      | .error e => .error e
      | .ok t1 => whileRunning W prog fuel n t1
    else .ok t

/-- The driver of the tests: `t.start(); while (t.is_running()) t.resume();`. -/
def drive {U : Type} (W : Nat) (prog : Nat → Body U) (fuel n : Nat) (t : Tasklet U) :
    Except Err (Tasklet U) :=
  match Tasklet.start W prog fuel t with
  | .error e => .error e
  | .ok t1 => whileRunning W prog fuel n t1

/-- Read a stored `int`; a word that holds a label address reads as `0`. -/
def Word.toInt : Word → Int
  | .val v => v
  | .lbl _ _ => 0

/-- The function `add_8` of the tests (tasklets_test.cpp, lines 18-29), with
`TaskletVar<int> j(tskl, 0)`:
`for (*j = 0; *j < 8; *j += 1) { tskl->i += 1; TASKLET_YIELD(); } TASKLET_END();`. -/
def add_8 : Body Int :=
  { vars := [{ bytes := 4, init := some 0 }]
    code :=
      [ .act (fun i _ => (i, [Word.val 0])),
        .br (fun _ ws => !decide ((ws.headD (Word.val 0)).toInt < 8)) 6,
        .act (fun i ws => (i + 1, ws)),
        .yield,
        .act (fun i ws => (i, [Word.val ((ws.headD (Word.val 0)).toInt + 1)])),
        .br (fun _ _ => true) 1,
        .tend ] }

/-- The method `SimpleTasklet::main` of the tests (lines 31-46). -/
def SimpleTasklet_main : Body Int :=
  { vars := []
    code :=
      [ .yield,
        .act (fun i ws => (i + 1, ws)),
        .yield,
        .act (fun i ws => (i + 2, ws)),
        .yield,
        .act (fun i ws => (i + 4, ws)),
        .call 1,
        .tend ] }

/-- The program of `TEST(TaskletTest, Simple)`: `main` is function `0`, `add_8` is
function `1`. -/
def SimpleTasklet : Nat → Body Int
  | 0 => SimpleTasklet_main
  | _ => add_8

/-- The method `WaitTasklet::main` of the tests (lines 65-77), with
`TaskletVar<int> j(this, 0)`:
`for (i = 0; i < 10; i += 1) { *j = i; TASKLET_WAIT(...); ASSERT_EQ(i, *j); }`.
The members are `i` and, as an observation, the list of the pairs `(i, *j)` that
`ASSERT_EQ` compared and found equal; a failing `ASSERT_EQ` returns from the function. -/
def WaitTasklet_main : Body (Int × List (Int × Int)) :=
  { vars := [{ bytes := 4, init := some 0 }]
    code :=
      [ .act (fun u ws => ((0, u.2), ws)),
        .br (fun u _ => !decide (u.1 < 10)) 8,
        .act (fun u _ => (u, [Word.val u.1])),
        .wait,
        .br (fun u ws => !decide (Word.val u.1 = ws.headD (Word.val 0))) 9,
        .act (fun u ws => ((u.1, u.2 ++ [(u.1, (ws.headD (Word.val 0)).toInt)]), ws)),
        .act (fun u ws => ((u.1 + 1, u.2), ws)),
        .br (fun _ _ => true) 1,
        .tend ] }

/-- The program of `TEST(TaskletTest, Wait)`. -/
def WaitTasklet : Nat → Body (Int × List (Int × Int)) := fun _ => WaitTasklet_main

/-- The object `SimpleTasklet t` of the test: sixteen words of scratch stack on a
platform with 8-byte words; `mem` is the content of the uninitialised array `stack` and
`e` the uninitialised bit `_ended`. -/
def SimpleTasklet.t0 (mem : Nat → Word) (e : Bool) : Tasklet Int :=
  Tasklet.create 8 mem (16 * 8) e 0 []

/-- The call `start()` followed by `n` calls of `resume()`. -/
def startResumes {U : Type} (W : Nat) (prog : Nat → Body U) (fuel n : Nat) (t : Tasklet U) :
    Except Err (Tasklet U) :=
  match Tasklet.start W prog fuel t with
  | .error e => .error e
  | .ok t1 => resumes W prog fuel n t1

/-! ### Straight-line bodies -/

/-- The code of a body without locals that consists of the segments `s0`, `s1`, ...,
`sk` of ordinary statements, with a `TASKLET_YIELD` between two segments and
`TASKLET_END` after the last: `s0; Yield; s1; Yield; ...; sk; End`. -/
def straightCode {U : Type} (s0 : List (U → List Word → U × List Word)) :
    List (List (U → List Word → U × List Word)) → List (Instr U)
  | [] => s0.map Instr.act ++ [Instr.tend]
  | s :: r => s0.map Instr.act ++ Instr.yield :: straightCode s r

/-- The length of the prefix `s0; Yield; ...; sj; Yield` (or `...; sj; End` when `sj` is
the last segment) of `straightCode s0 rest`. -/
def cut {U : Type} : List (U → List Word → U × List Word) →
    List (List (U → List Word → U × List Word)) → Nat → Nat
  | s0, _, 0 => s0.length + 1
  | s0, [], _ + 1 => s0.length + 1
  | s0, s :: r, j + 1 => s0.length + 1 + cut s r j

/-- The log that executing the instructions `code`, placed at `pc`, `pc + 1`, ... of
function `fn`, once each and in order, leaves. -/
def stmtEvents {U : Type} (fn : Nat) : Nat → List (Instr U) → List Event
  | _, [] => []
  | pc, Instr.act _ :: is => Event.exec fn pc :: stmtEvents fn (pc + 1) is
  | pc, Instr.tend :: is => Event.tend fn :: stmtEvents fn (pc + 1) is
  | pc, _ :: is => stmtEvents fn (pc + 1) is

/-- The effect on the members of executing the ordinary statements among `code`, once
each and in order, in a function without locals. -/
def stmtEffect {U : Type} : List (Instr U) → U → U
  | [], u => u
  | Instr.act f :: is, u => stmtEffect is (f u []).1
  | _ :: is, u => stmtEffect is u

/-- The body of scenario A: `yield; i+=1; yield; i+=2; yield; i+=4; end`. -/
def scenarioA : Nat → Body Int := fun _ =>
  { vars := []
    code := straightCode []
      [[fun i ws => (i + 1, ws)], [fun i ws => (i + 2, ws)], [fun i ws => (i + 4, ws)]] }

/-- What the external caller sees of an outcome: the members of the derived class and
`is_running()`; nothing if the run did not return. -/
def observe {U : Type} (r : Except Err (Tasklet U)) : Option (U × Bool) :=
  match r with
  | .ok t => some (t.user, t.is_running)
  | .error _ => none

/-- The slots that the proxy constructors of the declarations hand out when the first
one runs at cursor `sp` and the cursor moves (no re-entrant resume in progress). -/
def slotsFrom (W : Nat) : List VarDecl → Nat → List Nat
  | [], _ => []
  | d :: ds, sp => sp :: slotsFrom W ds (add16 sp (varWords W d.bytes))

/-- The cursor after the proxy constructors of the declarations ran from cursor `sp`. -/
def spAfter (W : Nat) : List VarDecl → Nat → Nat
  | [], sp => sp
  | d :: ds, sp => spAfter W ds (add16 sp (varWords W d.bytes))

/-- Whether every `assert(_sp < _stack_size)` of the proxy constructors of the
declarations holds when they run from cursor `sp` on a stack of `size` words. -/
def fits (W size : Nat) : List VarDecl → Nat → Bool
  | [], _ => true
  | d :: ds, sp =>
    decide (add16 sp (varWords W d.bytes) < size) && fits W size ds (add16 sp (varWords W d.bytes))

/-- The cursor after the proxy destructors of the declarations ran, in reverse order,
from cursor `sp`. -/
def popAll (W : Nat) : List VarDecl → Nat → Nat
  | [], sp => sp
  | d :: ds, sp => sub16 (popAll W ds sp) (varWords W d.bytes)

/-- The error with which a run stopped, if it did not return. -/
def errorOf {α : Type} (r : Except Err α) : Option Err :=
  match r with
  | .ok _ => none
  | .error e => some e

/-- What the external caller and the log show of an outcome: `is_running()` and the
log. -/
def observeLog {U : Type} (r : Except Err (Tasklet U)) : Option (Bool × List Event) :=
  match r with
  | .ok t => some (t.is_running, t.trace)
  | .error _ => none

/-- A tasklet whose `main` is `TASKLET_CALL(f); TASKLET_YIELD(); TASKLET_END()` and whose
`f` is `TASKLET_BEGIN_FUNC(tskl); TASKLET_END()`; `main` declares the locals `vars`. -/
def callThenYield (vars : List VarDecl) : Nat → Body Unit
  | 0 => { vars := vars, code := [.call 1, .yield, .tend] }
  | _ => { vars := [], code := [.tend] }

/-- A tasklet whose `main` is `TASKLET_CALL(f); s; TASKLET_END()`, whose `f` is
`TASKLET_CALL(g); TASKLET_YIELD(); s; TASKLET_END()` and whose `g` is `TASKLET_END()`,
where `s` is an ordinary statement. -/
def calleeYieldsAfterCall : Nat → Body Unit
  | 0 => { vars := [], code := [.call 1, .act (fun u ws => (u, ws)), .tend] }
  | 1 => { vars := [], code := [.call 2, .yield, .act (fun u ws => (u, ws)), .tend] }
  | _ => { vars := [], code := [.tend] }

/-- A tasklet in the state in which `WaitTasklet::main` reaches its `TASKLET_WAIT` for the
first time. -/
def WaitTasklet.atWait : Tasklet (Int × List (Int × Int)) :=
  { stack_size := 16, sp := 1, fresh := false, norecurse := false, nopopv := false
    ended := false, stack := fun _ => Word.val 0, user := (0, []), starters := []
    trace := [Event.ctor 0 0 0, Event.exec 0 0, Event.exec 0 2] }

/-- The state of the `SimpleTasklet` object between two invocations while `main` is
suspended at the macro at `pc`, with member `i`. -/
def SimpleSuspended (t : Tasklet Int) (pc : Nat) (i : Int) : Prop :=
  t.stack_size = 16 ∧ t.sp = 0 ∧ t.fresh = false ∧ t.norecurse = false ∧ t.nopopv = false ∧
    t.ended = false ∧ t.stack 0 = Word.lbl 0 pc ∧ t.user = i

/-- The state of the `SimpleTasklet` object between two invocations while `add_8` is
suspended at its `TASKLET_YIELD` with `*j == j`. -/
def InAdd8 (t : Tasklet Int) (j i : Int) : Prop :=
  SimpleSuspended t 6 i ∧ t.stack 1 = Word.val j ∧ t.stack 2 = Word.lbl 1 3

/-- The pairs `(i, *j)` that the checks of `WaitTasklet::main` should record from
iteration `n` on, for `k` iterations. -/
def checks : Nat → Nat → List (Int × Int)
  | _, 0 => []
  | n, k + 1 => ((n : Int), (n : Int)) :: checks (n + 1) k

/-- A tasklet over a scratch stack of `cap` words with the cursor at `sp`, as
`TASKLET_BEGIN` leaves it on the first entry. -/
def Tasklet.atCursor (cap sp : Nat) : Tasklet Unit :=
  { stack_size := cap, sp := sp, fresh := false, norecurse := false, nopopv := false
    ended := false, stack := fun _ => Word.val 0, user := (), starters := [], trace := [] }

/-- A tasklet whose `main` is `TASKLET_WAIT(...); s; TASKLET_END()`, where `s` is an
ordinary statement, without locals. -/
def waitThenStmt : Nat → Body Unit := fun _ =>
  { vars := [], code := [.wait, .act (fun u ws => (u, ws)), .tend] }

/-- The transient flags are clear and the cursor is a 16-bit value: the state of a tasklet
outside a `TASKLET_WAIT`. -/
def Quiet {U : Type} (t : Tasklet U) : Prop :=
  t.norecurse = false ∧ t.nopopv = false ∧ t.sp < 65536

/-- The states in which a body is entered at `e`: with `_fresh` clear, except at the
label of a `TASKLET_CALL`, which the first half of the macro reaches with `_fresh` set. -/
def EntryOK {U : Type} (prog : Nat → Body U) (fn : Nat) (e : Entry) (t : Tasklet U) : Prop :=
  t.fresh = false ∨ ∃ pc g, e = Entry.alpha pc ∧ (prog fn).code[pc]? = some (Instr.call g)

/-- The flags `_ended` and `_fresh` of an outcome, if the run returned. -/
def endedAndFresh {U : Type} (r : Except Err (Tasklet U)) : Option (Bool × Bool) :=
  match r with
  | .ok t => some (t.ended, t.fresh)
  | .error _ => none

/-- A tasklet whose `main` is `TASKLET_CALL(f); TASKLET_END()` and whose `f` is
`TASKLET_CALL(g); TASKLET_YIELD(); TASKLET_END()`, with `g` being `TASKLET_END()`. -/
def calleeSuspendsAfterCall : Nat → Body Unit
  | 0 => { vars := [], code := [.call 1, .tend] }
  | 1 => { vars := [], code := [.call 2, .yield, .tend] }
  | _ => { vars := [], code := [.tend] }

/-! ### Accesses to the resume point, checked -/

/-- Why a checked run stops: an error of the run itself, or an access to the resume point
`_stack[_sp]` with the cursor not below the capacity (`outside`), or with the cursor
within the words of a local of the same frame (`overlap`). -/
inductive Fault where
  | err (e : Err)
  | outside
  | overlap
  deriving DecidableEq, Repr

/-- An outcome of the unchecked semantics as an outcome of the checked one. -/
def faultOf {α : Type} (r : Except Err α) : Except Fault α :=
  match r with
  | .ok a => .ok a
  | .error e => .error (.err e)

/-- The number of words that the locals of the declarations take. -/
def totalWords (W : Nat) : List VarDecl → Nat
  | [] => 0
  | d :: ds => varWords W d.bytes + totalWords W ds

/-- Whether slot `i` lies within the words of one of the locals of the declarations, bound
to the slots `vars`. -/
def overlaps (W : Nat) : List VarDecl → List Nat → Nat → Bool
  | d :: ds, v :: vs, i =>
    (decide (v ≤ i) && decide (i < v + varWords W d.bytes)) || overlaps W ds vs i
  | _, _, _ => false

/-- An access to `_stack[_sp]` by a macro of a function with the declarations `ds`, whose
proxies are bound to `vars`, followed by `k`.  The access is checked to lie inside the
scratch stack and, if `ov` is set and no re-entrant `resume()` is in progress, outside the
locals of the frame. -/
def resumePoint {U α : Type} (W : Nat) (ov : Bool) (ds : List VarDecl) (vars : List Nat)
    (t : Tasklet U) (k : Except Fault α) : Except Fault α :=
  if t.sp < t.stack_size then
    if ov && !t.norecurse && overlaps W ds vars t.sp then .error .overlap else k
  else .error .outside

/-- The macro `__TASKLET_BEGIN` with its read of `_stack[_sp]` checked. -/
def beginChecked {U : Type} (W : Nat) (ov : Bool) (ds : List VarDecl) (vars : List Nat)
    (fn : Nat) (t : Tasklet U) : Except Fault (Entry × Tasklet U) :=
  if t.fresh then faultOf (TASKLET_BEGIN fn t)
  else resumePoint W ov ds vars t (faultOf (TASKLET_BEGIN fn t))

/-- The function `invoke` with the accesses to the resume point checked. -/
def invokeChecked {U : Type} (W : Nat) (prog : Nat → Body U) (ov : Bool)
    (r : Nat → List Nat → Entry → Tasklet U → Except Fault (Tasklet U))
    (fn : Nat) (t : Tasklet U) : Except Fault (Tasklet U) :=
  match construct W fn (prog fn).vars 0 t with
  | .error e => .error (.err e)
  | .ok (vars, t1) =>
    match beginChecked W ov (prog fn).vars vars fn t1 with
    | .error e => .error e
    | .ok (e, t2) =>
      match r fn vars e t2 with
      | .error e => .error e
      | .ok t3 => .ok (destruct W fn (prog fn).vars vars 0 t3)

/-- The function `run` with the accesses to the resume point checked: the stores of
`TASKLET_YIELD`, `TASKLET_CALL` and `TASKLET_WAIT`, and the jump of `TASKLET_BEGIN`. -/
def runChecked {U : Type} (W : Nat) (prog : Nat → Body U) (ov : Bool) :
    Nat → Nat → List Nat → Entry → Tasklet U → Except Fault (Tasklet U)
  | 0, _, _, _, _ => .error (.err .outOfFuel)
  | fuel + 1, fn, vars, .at pc, t =>
    match (prog fn).code[pc]? with
    | none => .ok t
    | some (.act f) =>
      let r := f t.user (vars.map t.stack)
      runChecked W prog ov fuel fn vars (.at (pc + 1))
        { t with user := r.1, stack := writeVars vars r.2 t.stack
                 trace := t.trace ++ [Event.exec fn pc] }
    | some (.br c target) =>
      runChecked W prog ov fuel fn vars
        (.at (if c t.user (vars.map t.stack) then target else pc + 1)) t
    | some .yield =>
      resumePoint W ov (prog fn).vars vars t
        (.ok { t with stack := setSlot t.stack t.sp (.lbl fn pc) })
    | some .tend =>
      runChecked W prog ov fuel fn vars (.at (pc + 1))
        { t with ended := true, fresh := false, trace := t.trace ++ [Event.tend fn] }
    | some (.call _) =>
      resumePoint W ov (prog fn).vars vars t
        (runChecked W prog ov fuel fn vars (.alpha pc) (callStore fn pc t))
    | some .wait =>
      resumePoint W ov (prog fn).vars vars t
        (let t1 := waitStore fn pc t
         let started : Except Fault (Tasklet U) :=
           match t1.starters with
           | true :: rest =>
             invokeChecked W prog ov (runChecked W prog ov fuel) 0 { t1 with starters := rest }
           | false :: rest => .ok { t1 with starters := rest }
           | [] => .ok t1
         match started with
         | .error e => .error e
         | .ok t2 =>
           if t2.norecurse then .ok { t2 with norecurse := false }
           else runChecked W prog ov fuel fn vars (.alpha pc) { t2 with nopopv := false })
  | fuel + 1, fn, vars, .alpha pc, t =>
    match (prog fn).code[pc]? with
    | some .yield => runChecked W prog ov fuel fn vars (.at (pc + 1)) t
    | some (.call g) =>
      match callEnter t with
      | .error e => .error (.err e)
      | .ok t1 =>
        match invokeChecked W prog ov (runChecked W prog ov fuel) g t1 with
        | .error e => .error e
        | .ok t2 =>
          let t3 := callExit t2
          if !t3.ended then .ok t3 else runChecked W prog ov fuel fn vars (.at (pc + 1)) t3
    | some .wait =>
      if t.norecurse then .ok { t with nopopv := true, norecurse := false }
      else runChecked W prog ov fuel fn vars (.at (pc + 1)) t
    | _ => .error (.err .badJump)

/-- The virtual method `main()` with the accesses to the resume point checked. -/
def mainChecked {U : Type} (W : Nat) (prog : Nat → Body U) (ov : Bool) (fuel : Nat)
    (t : Tasklet U) : Except Fault (Tasklet U) :=
  invokeChecked W prog ov (runChecked W prog ov fuel) 0 t

/-- The slots and the cursor that the proxy constructors return, if they return. -/
def slotsAndCursor {U : Type} (r : Except Err (List Nat × Tasklet U)) :
    Option (List Nat × Nat) :=
  match r with
  | .ok (vars, t) => some (vars, t.sp)
  | .error _ => none

/-- A tasklet whose `main` is `TaskletVar<T> x(this, 7); TASKLET_BEGIN(); TASKLET_YIELD();
TASKLET_END()` with `sizeof(T) == 524288`: a local of `2^16` words. -/
def bigLocal : Nat → Body Unit := fun _ =>
  { vars := [⟨524288, some 7⟩], code := [.yield, .tend] }

/-- The slots of the proxies, the entry and the cursor with which a body is entered, if
it is. -/
def entryOf {U : Type} (r : Except Err (List Nat × Entry × Tasklet U)) :
    Option (List Nat × Entry × Nat) :=
  match r with
  | .ok (vars, e, t) => some (vars, e, t.sp)
  | .error _ => none

/-- The check that a checked run failed, if any. -/
def faultIn {α : Type} (r : Except Fault α) : Option Fault :=
  match r with
  | .ok _ => none
  | .error f => some f

/-! ## Theorems -/

theorem getElem?_mid {α : Type} (pre : List α) (x : α) (rest : List α) :
    (pre ++ x :: rest)[pre.length]? = some x := by
  rw [List.getElem?_append_right (Nat.le_refl _)]
  simp

theorem stmtEvents_append {U : Type} (fn : Nat) (a b : List (Instr U)) :
    ∀ pc, stmtEvents fn pc (a ++ b) = stmtEvents fn pc a ++ stmtEvents fn (pc + a.length) b := by
  induction a with
  | nil => intro pc; simp [stmtEvents]
  | cons i is ih =>
    intro pc
    cases i <;> simp [stmtEvents, ih, Nat.add_assoc, Nat.add_comm 1]

theorem stmtEffect_append {U : Type} (a b : List (Instr U)) :
    ∀ u, stmtEffect (a ++ b) u = stmtEffect b (stmtEffect a u) := by
  induction a with
  | nil => intro u; simp [stmtEffect]
  | cons i is ih =>
    intro u
    cases i <;> simp [stmtEffect, ih]

/-- Executing a run of ordinary statements in a function without locals. -/
theorem run_acts {U : Type} (W : Nat) (prog : Nat → Body U) (fn : Nat)
    (acts : List (U → List Word → U × List Word)) :
    ∀ (pre rest : List (Instr U)) (fuel : Nat) (t : Tasklet U),
      (prog fn).code = pre ++ (acts.map Instr.act ++ rest) →
      run W prog (fuel + acts.length) fn [] (.at pre.length) t =
        run W prog fuel fn [] (.at (pre.length + acts.length))
          { t with user := stmtEffect (acts.map Instr.act) t.user
                   trace := t.trace ++ stmtEvents fn pre.length (acts.map Instr.act) } := by
  induction acts with
  | nil => intro pre rest fuel t _; simp [stmtEffect, stmtEvents]
  | cons a as ih =>
    intro pre rest fuel t h
    have hget : (prog fn).code[pre.length]? = some (Instr.act a) := by
      rw [h]; exact getElem?_mid pre _ _
    have h2 : (prog fn).code = (pre ++ [Instr.act a]) ++ (as.map Instr.act ++ rest) := by
      rw [h]; simp
    have := ih (pre ++ [Instr.act a]) rest fuel
      { t with user := (a t.user []).1, trace := t.trace ++ [Event.exec fn pre.length] } h2
    simp only [List.length_append, List.length_singleton, List.length_cons, List.length_nil,
      Nat.zero_add] at this ⊢
    rw [← Nat.add_assoc, run, hget]
    simp only [List.map_nil, writeVars]
    rw [this]
    simp [stmtEffect, stmtEvents, Nat.add_assoc, Nat.add_comm 1]

/-- An invocation of `main` when `main` declares no locals: `TASKLET_BEGIN`, then the
body. -/
theorem main_nolocals {U : Type} (W : Nat) (prog : Nat → Body U) (fuel : Nat) (t : Tasklet U)
    (hv : (prog 0).vars = []) :
    Tasklet.main W prog fuel t =
      match TASKLET_BEGIN 0 t with
      | .error e => .error e
      | .ok (e, t1) => run W prog fuel 0 [] e t1 := by
  unfold Tasklet.main invoke enter
  rw [hv]
  simp only [construct]
  cases hB : TASKLET_BEGIN 0 t with
  | error e => rfl
  | ok p =>
    obtain ⟨e, t1⟩ := p
    simp only []
    cases run W prog fuel 0 [] e t1 <;> simp [destruct]

theorem straightCode_length {U : Type} (s0 : List (U → List Word → U × List Word))
    (rest : List (List (U → List Word → U × List Word))) :
    s0.length + 1 ≤ (straightCode s0 rest).length := by
  cases rest <;> simp [straightCode]

/-- A segment that is followed by `TASKLET_YIELD`: the statements run, the label is
stored in the slot at the cursor, and the function returns. -/
theorem run_segment_yield {U : Type} (W : Nat) (prog : Nat → Body U) (fn : Nat)
    (s : List (U → List Word → U × List Word)) (pre rest : List (Instr U)) (fuel : Nat)
    (t : Tasklet U) (h : (prog fn).code = pre ++ (s.map Instr.act ++ Instr.yield :: rest)) :
    run W prog (fuel + 1 + s.length) fn [] (.at pre.length) t =
      .ok { t with user := stmtEffect (s.map Instr.act) t.user
                   trace := t.trace ++ stmtEvents fn pre.length (s.map Instr.act)
                   stack := setSlot t.stack t.sp (.lbl fn (pre.length + s.length)) } := by
  rw [run_acts W prog fn s pre _ (fuel + 1) t h]
  have hget : (prog fn).code[pre.length + s.length]? = some Instr.yield := by
    have := getElem?_mid (pre ++ s.map Instr.act) Instr.yield rest
    simpa [h] using this
  rw [run, hget]

/-- The last segment, followed by `TASKLET_END` and the end of the function. -/
theorem run_segment_end {U : Type} (W : Nat) (prog : Nat → Body U) (fn : Nat)
    (s : List (U → List Word → U × List Word)) (pre : List (Instr U)) (fuel : Nat)
    (t : Tasklet U) (h : (prog fn).code = pre ++ (s.map Instr.act ++ [Instr.tend])) :
    run W prog (fuel + 2 + s.length) fn [] (.at pre.length) t =
      .ok { t with user := stmtEffect (s.map Instr.act) t.user
                   trace := t.trace ++ stmtEvents fn pre.length (s.map Instr.act) ++ [Event.tend fn]
                   ended := true
                   fresh := false } := by
  rw [run_acts W prog fn s pre _ (fuel + 2) t h]
  have hget : (prog fn).code[pre.length + s.length]? = some Instr.tend := by
    have := getElem?_mid (pre ++ s.map Instr.act) Instr.tend []
    simpa [h] using this
  have hnone : (prog fn).code[pre.length + s.length + 1]? = none := by
    rw [h]; simp; omega
  rw [run, hget, run, hnone]

theorem take_cut_last {U : Type} (s : List (U → List Word → U × List Word)) (j : Nat) :
    (straightCode s []).take (cut s [] j) = s.map Instr.act ++ [Instr.tend] := by
  have : cut s [] j = (s.map Instr.act ++ [Instr.tend]).length := by
    cases j <;> simp [cut]
  rw [straightCode, this, List.take_length]

theorem take_cut_zero {U : Type} (s s1 : List (U → List Word → U × List Word))
    (r : List (List (U → List Word → U × List Word))) :
    (straightCode s (s1 :: r)).take (cut s (s1 :: r) 0) = s.map Instr.act ++ [Instr.yield] := by
  have h := @List.take_append _ (s.map Instr.act ++ [Instr.yield]) (straightCode s1 r) 0
  simpa [straightCode, cut] using h

theorem take_cut_succ {U : Type} (s s1 : List (U → List Word → U × List Word))
    (r : List (List (U → List Word → U × List Word))) (j : Nat) :
    (straightCode s (s1 :: r)).take (cut s (s1 :: r) (j + 1)) =
      s.map Instr.act ++ Instr.yield :: (straightCode s1 r).take (cut s1 r j) := by
  have h := @List.take_append _ (s.map Instr.act ++ [Instr.yield]) (straightCode s1 r)
    (cut s1 r j)
  simpa [straightCode, cut] using h

/-- The first invocation of a `main` without locals starts at the top of the body. -/
theorem start_fresh {U : Type} (W : Nat) (prog : Nat → Body U) (fuel : Nat) (t : Tasklet U)
    (hv : (prog 0).vars = []) (hf : t.fresh = true) :
    Tasklet.start W prog fuel t =
      run W prog fuel 0 [] (.at 0) { t with ended := false, fresh := false } := by
  unfold Tasklet.start
  rw [main_nolocals W prog fuel t hv]
  simp [TASKLET_BEGIN, hf]

/-- An invocation of a `main` without locals that was suspended at the `TASKLET_YIELD`
at `pc` continues with the instruction after it. -/
theorem resume_at_yield {U : Type} (W : Nat) (prog : Nat → Body U) (fuel pc : Nat)
    (t : Tasklet U) (hv : (prog 0).vars = []) (hf : t.fresh = false)
    (hs : t.stack t.sp = Word.lbl 0 pc) (hy : (prog 0).code[pc]? = some Instr.yield) :
    Tasklet.resume W prog (fuel + 1) t =
      run W prog fuel 0 [] (.at (pc + 1)) { t with ended := false } := by
  unfold Tasklet.resume
  rw [main_nolocals W prog (fuel + 1) t hv]
  simp only [TASKLET_BEGIN, hf, hs]
  simp only [Bool.false_eq_true, if_false, if_true]
  rw [run, hy]

theorem resumes_straight {U : Type} (W : Nat) (prog : Nat → Body U)
    (hv : (prog 0).vars = []) (fuel : Nat) (hfuel : (prog 0).code.length + 2 ≤ fuel) :
    ∀ (rest : List (List (U → List Word → U × List Word)))
      (s : List (U → List Word → U × List Word)) (pre : List (Instr U)) (t : Tasklet U)
      (j : Nat),
      (prog 0).code = pre ++ Instr.yield :: straightCode s rest →
      t.sp = 0 → t.fresh = false → t.stack 0 = Word.lbl 0 pre.length → j ≤ rest.length →
      ∃ t', resumes W prog fuel (j + 1) t = .ok t' ∧
        t'.user = stmtEffect ((straightCode s rest).take (cut s rest j)) t.user ∧
        t'.trace = t.trace ++
          stmtEvents 0 (pre.length + 1) ((straightCode s rest).take (cut s rest j)) ∧
        t'.ended = decide (j = rest.length) := by
  intro rest
  induction rest with
  | nil =>
    intro s pre t j hc hsp hfr hst hj
    have hj0 : j = 0 := by simpa using hj
    subst hj0
    have hlen : (prog 0).code.length = pre.length + 1 + (s.length + 1) := by
      rw [hc]; simp [straightCode]; omega
    obtain ⟨g, rfl⟩ : ∃ g, fuel = (g + 2 + s.length) + 1 := ⟨fuel - s.length - 3, by omega⟩
    have hy : (prog 0).code[pre.length]? = some Instr.yield := by
      rw [hc]; exact getElem?_mid _ _ _
    have hc2 : (prog 0).code = (pre ++ [Instr.yield]) ++ (s.map Instr.act ++ [Instr.tend]) := by
      rw [hc]; simp [straightCode]
    have hrun := run_segment_end W prog 0 s (pre ++ [Instr.yield]) g { t with ended := false } hc2
    simp only [List.length_append, List.length_singleton] at hrun
    rw [take_cut_last]
    refine ⟨{ t with
        user := stmtEffect (s.map Instr.act) t.user
        trace := t.trace ++ stmtEvents 0 (pre.length + 1) (s.map Instr.act) ++ [Event.tend 0]
        ended := true
        fresh := false }, ?_, ?_, ?_, ?_⟩
    · rw [resumes, resume_at_yield W prog _ pre.length t hv hfr (by rw [hsp]; exact hst) hy, hrun]
      simp only [resumes]
    · simp [stmtEffect_append, stmtEffect]
    · simp [stmtEvents_append, stmtEvents]
    · simp
  | cons s1 r ih =>
    intro s pre t j hc hsp hfr hst hj
    have hlen : pre.length + 1 + (s.length + 1) ≤ (prog 0).code.length := by
      rw [hc]; simp [straightCode]; omega
    obtain ⟨g, hg⟩ : ∃ g, fuel = (g + 1 + s.length) + 1 := ⟨fuel - s.length - 2, by omega⟩
    have hy : (prog 0).code[pre.length]? = some Instr.yield := by
      rw [hc]; exact getElem?_mid _ _ _
    have hc2 : (prog 0).code =
        (pre ++ [Instr.yield]) ++ (s.map Instr.act ++ Instr.yield :: straightCode s1 r) := by
      rw [hc]; simp [straightCode]
    have hrun := run_segment_yield W prog 0 s (pre ++ [Instr.yield]) (straightCode s1 r) g
      { t with ended := false } hc2
    simp only [List.length_append, List.length_singleton] at hrun
    have hres : Tasklet.resume W prog fuel t = .ok
        { t with ended := false
                 user := stmtEffect (s.map Instr.act) t.user
                 trace := t.trace ++ stmtEvents 0 (pre.length + 1) (s.map Instr.act)
                 stack := setSlot t.stack t.sp (.lbl 0 (pre.length + 1 + s.length)) } := by
      rw [hg, resume_at_yield W prog _ pre.length t hv hfr (by rw [hsp]; exact hst) hy, hrun]
    cases j with
    | zero =>
      rw [take_cut_zero]
      refine ⟨{ t with
          ended := false
          user := stmtEffect (s.map Instr.act) t.user
          trace := t.trace ++ stmtEvents 0 (pre.length + 1) (s.map Instr.act)
          stack := setSlot t.stack t.sp (.lbl 0 (pre.length + 1 + s.length)) }, ?_, ?_, ?_, ?_⟩
      · rw [resumes, hres]
        simp only [resumes]
      · simp [stmtEffect_append, stmtEffect]
      · simp [stmtEvents_append, stmtEvents]
      · simp
    | succ j =>
      have hc3 : (prog 0).code =
          (pre ++ Instr.yield :: s.map Instr.act) ++ Instr.yield :: straightCode s1 r := by
        rw [hc]; simp [straightCode]
      obtain ⟨t', h1, h2, h3, h4⟩ := ih s1 (pre ++ Instr.yield :: s.map Instr.act)
        { t with ended := false
                 user := stmtEffect (s.map Instr.act) t.user
                 trace := t.trace ++ stmtEvents 0 (pre.length + 1) (s.map Instr.act)
                 stack := setSlot t.stack t.sp (.lbl 0 (pre.length + 1 + s.length)) }
        j hc3 hsp hfr (by simp [setSlot, hsp]; omega) (by simpa using hj)
      refine ⟨t', ?_, ?_, ?_, ?_⟩
      · rw [resumes, hres]
        exact h1
      · rw [h2, take_cut_succ]
        simp [stmtEffect_append, stmtEffect]
      · rw [h3, take_cut_succ]
        simp [stmtEvents_append, stmtEvents, Nat.add_assoc, Nat.add_comm 1]
      · rw [h4]; simp

theorem stmtEffect_take_cut {U : Type} :
    ∀ (rest : List (List (U → List Word → U × List Word)))
      (s : List (U → List Word → U × List Word)) (j : Nat) (u : U),
      stmtEffect ((straightCode s rest).take (cut s rest j)) u =
        (s :: rest.take j).flatten.foldl (fun u f => (f u []).1) u := by
  have hact : ∀ (s : List (U → List Word → U × List Word)) (u : U),
      stmtEffect (s.map Instr.act) u = s.foldl (fun u f => (f u []).1) u := by
    intro s
    induction s with
    | nil => intro u; rfl
    | cons a as ih => intro u; simp [stmtEffect, ih]
  intro rest
  induction rest with
  | nil =>
    intro s j u
    rw [take_cut_last]
    simp [stmtEffect_append, stmtEffect, hact]
  | cons s1 r ih =>
    intro s j u
    cases j with
    | zero =>
      rw [take_cut_zero]
      simp [stmtEffect_append, stmtEffect, hact]
    | succ j =>
      rw [take_cut_succ]
      have := ih s1 j (s.foldl (fun u f => (f u []).1) u)
      simp [stmtEffect_append, stmtEffect, hact, this]

theorem startResumes_zero_of {U : Type} {W : Nat} {prog : Nat → Body U} {fuel : Nat}
    {t t1 : Tasklet U} (h : Tasklet.start W prog fuel t = .ok t1) :
    startResumes W prog fuel 0 t = .ok t1 := by
  unfold startResumes
  rw [h]
  rfl

theorem startResumes_of {U : Type} {W : Nat} {prog : Nat → Body U} {fuel : Nat}
    {t t1 : Tasklet U} (h : Tasklet.start W prog fuel t = .ok t1) (n : Nat) :
    startResumes W prog fuel n t = resumes W prog fuel n t1 := by
  unfold startResumes
  rw [h]

theorem startResumes_straight {U : Type} (W : Nat) (prog : Nat → Body U)
    (s0 : List (U → List Word → U × List Word))
    (rest : List (List (U → List Word → U × List Word)))
    (hprog : prog 0 = { vars := [], code := straightCode s0 rest })
    (t0 : Tasklet U) (hf : t0.fresh = true) (hsp : t0.sp = 0) (j fuel : Nat)
    (hj : j ≤ rest.length) (hfuel : (straightCode s0 rest).length + 2 ≤ fuel) :
    ∃ t, startResumes W prog fuel j t0 = .ok t ∧
      t.trace = t0.trace ++ stmtEvents 0 0 ((straightCode s0 rest).take (cut s0 rest j)) ∧
      t.user = stmtEffect ((straightCode s0 rest).take (cut s0 rest j)) t0.user ∧
      t.ended = decide (j = rest.length) := by
  have hv : (prog 0).vars = [] := by rw [hprog]
  have hcode : (prog 0).code = straightCode s0 rest := by rw [hprog]
  have hlen := straightCode_length s0 rest
  have hstart := start_fresh W prog fuel t0 hv hf
  cases rest with
  | nil =>
    have hj0 : j = 0 := by simpa using hj
    subst hj0
    obtain ⟨g, rfl⟩ : ∃ g, fuel = g + 2 + s0.length := ⟨fuel - s0.length - 2, by omega⟩
    have hc2 : (prog 0).code = [] ++ (s0.map Instr.act ++ [Instr.tend]) := by
      rw [hcode]; simp [straightCode]
    have hrun := run_segment_end W prog 0 s0 [] g { t0 with ended := false, fresh := false } hc2
    rw [take_cut_last]
    refine ⟨_, startResumes_zero_of (hstart.trans hrun), ?_, ?_, ?_⟩
    · simp [stmtEvents_append, stmtEvents]
    · simp [stmtEffect_append, stmtEffect]
    · simp
  | cons s1 r =>
    obtain ⟨g, hg⟩ : ∃ g, fuel = g + 1 + s0.length := ⟨fuel - s0.length - 1, by omega⟩
    have hc2 : (prog 0).code = [] ++ (s0.map Instr.act ++ Instr.yield :: straightCode s1 r) := by
      rw [hcode]; simp [straightCode]
    have hrun := run_segment_yield W prog 0 s0 [] (straightCode s1 r) g
      { t0 with ended := false, fresh := false } hc2
    rw [← hg] at hrun
    have hst := hstart.trans hrun
    cases j with
    | zero =>
      rw [take_cut_zero]
      refine ⟨_, startResumes_zero_of hst, ?_, ?_, ?_⟩
      · simp [stmtEvents_append, stmtEvents]
      · simp [stmtEffect_append, stmtEffect]
      · simp
    | succ j =>
      have hc3 : (prog 0).code = s0.map Instr.act ++ Instr.yield :: straightCode s1 r := by
        rw [hcode]; simp [straightCode]
      obtain ⟨t', h1, h2, h3, h4⟩ := resumes_straight W prog hv fuel
        (by rw [hcode]; exact hfuel) r s1 (s0.map Instr.act)
        { t0 with
          ended := false
          fresh := false
          user := stmtEffect (s0.map Instr.act) t0.user
          trace := t0.trace ++ stmtEvents 0 0 (s0.map Instr.act)
          stack := setSlot t0.stack t0.sp (.lbl 0 (0 + s0.length)) } j hc3
        hsp rfl (by simp [setSlot, hsp]) (by simpa using hj)
      refine ⟨t', (startResumes_of hst _).trans h1, ?_, ?_, ?_⟩
      · rw [h3, take_cut_succ]
        simp [stmtEvents_append, stmtEvents, Nat.add_comm 1]
      · rw [h2, take_cut_succ]
        simp [stmtEffect_append, stmtEffect]
      · simp [h4]

/-- C1. A body `s0; Yield; s1; Yield; ...; sk; End` without locals, run on a freshly
constructed tasklet by `start()` and then `j <= k` calls of `resume()`, returns each time;
the log of executed statements is that of the prefix `s0; Yield; ...; sj; Yield` (or `End`)
of the code, each instruction once and in program order; the members hold the effect of
the statements of `s0, ..., sj` applied in order; and `is_running()` is false exactly when
`j = k`.  This holds for every amount of fuel from the length of the code plus two on. -/
theorem yield_only_runs_in_order {U : Type} (W : Nat) (prog : Nat → Body U)
    (s0 : List (U → List Word → U × List Word))
    (rest : List (List (U → List Word → U × List Word)))
    (hprog : prog 0 = { vars := [], code := straightCode s0 rest })
    (mem : Nat → Word) (bytes : Nat) (e : Bool) (u : U) (st : List Bool) (j fuel : Nat)
    (hj : j ≤ rest.length) (hfuel : (straightCode s0 rest).length + 2 ≤ fuel) :
    ∃ t, startResumes W prog fuel j (Tasklet.create W mem bytes e u st) = .ok t ∧
      t.trace = stmtEvents 0 0 ((straightCode s0 rest).take (cut s0 rest j)) ∧
      t.user = stmtEffect ((straightCode s0 rest).take (cut s0 rest j)) u ∧
      t.user = (s0 :: rest.take j).flatten.foldl (fun u f => (f u []).1) u ∧
      (t.is_running = false ↔ j = rest.length) := by
  obtain ⟨t, h1, h2, h3, h4⟩ := startResumes_straight W prog s0 rest hprog
    (Tasklet.create W mem bytes e u st) rfl rfl j fuel hj hfuel
  refine ⟨t, h1, ?_, h3, ?_, ?_⟩
  · rw [h2]; simp [Tasklet.create]
  · rw [h3, stmtEffect_take_cut]; rfl
  · simp [Tasklet.is_running, h4]

/-- C1, scenario A: `yield; i+=1; yield; i+=2; yield; i+=4; end` leaves `i == 7` and has
ended after `start()` and three calls of `resume()`. -/
theorem yield_only_runs_in_order_witness :
    3 ≤ 3 ∧ 4 + 3 + 2 ≤ 20 ∧
    observe (startResumes 8 scenarioA 20 3
      (Tasklet.create 8 (fun _ => Word.val 0) 128 true (0 : Int) [])) = some (7, false) := by
  obtain ⟨t, h, _, _, hu, hr⟩ := yield_only_runs_in_order 8 scenarioA []
    [[fun i ws => (i + 1, ws)], [fun i ws => (i + 2, ws)], [fun i ws => (i + 4, ws)]] rfl
    (fun _ => Word.val 0) 128 true (0 : Int) [] 3 20 (by decide) (by decide)
  refine ⟨by decide, by decide, ?_⟩
  rw [h]
  have hr2 : t.is_running = false := hr.mpr rfl
  simp [observe, hu, hr2]

/-! ### Proxy constructors and destructors -/

theorem sub16_add16 (a b : Nat) (ha : a < 65536) : sub16 (add16 a b) b = a := by
  unfold sub16 add16
  omega

/-- During a re-entrant resume (`_norecurse` set, `_fresh` clear) the proxy constructors
change nothing; every proxy is bound to the slot at the cursor. -/
theorem construct_norecurse {U : Type} (W fn : Nat) (ds : List VarDecl) :
    ∀ (k : Nat) (t : Tasklet U), t.norecurse = true → t.fresh = false →
      construct W fn ds k t = .ok (List.replicate ds.length t.sp, t) := by
  induction ds with
  | nil => intro k t _ _; rfl
  | cons d ds ih =>
    intro k t hn hf
    simp [construct, push, hn, hf, ih (k + 1) t hn hf, List.replicate_succ]

/-- At the return of a re-entrant resume (`_ended` clear, `_nopopv` set) the proxy
destructors change nothing. -/
theorem destruct_nopopv {U : Type} (W fn : Nat) (ds : List VarDecl) :
    ∀ (vars : List Nat) (k : Nat) (t : Tasklet U), t.ended = false → t.nopopv = true →
      destruct W fn ds vars k t = t := by
  induction ds with
  | nil => intro vars k t _ _; cases vars <;> rfl
  | cons d ds ih =>
    intro vars k t he hp
    cases vars with
    | nil => rfl
    | cons v vs => simp [destruct, ih vs (k + 1) t he hp, destroy1, he, hp]

theorem spAfter_lt (W : Nat) (ds : List VarDecl) :
    ∀ sp, sp < 65536 → spAfter W ds sp < 65536 := by
  induction ds with
  | nil => intro sp h; exact h
  | cons d ds ih =>
    intro sp _
    exact ih _ (by unfold add16; omega)

/-- The destructors undo the cursor movement of the constructors. -/
theorem popAll_spAfter (W : Nat) (ds : List VarDecl) :
    ∀ sp, sp < 65536 → popAll W ds (spAfter W ds sp) = sp := by
  induction ds with
  | nil => intro sp _; rfl
  | cons d ds ih =>
    intro sp h
    have h2 : add16 sp (varWords W d.bytes) < 65536 := by unfold add16; omega
    have h3 : popAll W ds (spAfter W ds (add16 sp (varWords W d.bytes))) =
        add16 sp (varWords W d.bytes) := ih _ h2
    show sub16 (popAll W ds (spAfter W ds (add16 sp (varWords W d.bytes)))) (varWords W d.bytes) = sp
    rw [h3]
    exact sub16_add16 sp _ h

/-! ### Invocations, `TASKLET_CALL` and `TASKLET_WAIT` -/

theorem invoke_ok {U : Type} {W : Nat} {prog : Nat → Body U}
    {r : Nat → List Nat → Entry → Tasklet U → Except Err (Tasklet U)} {fn : Nat}
    {t t1 t2 : Tasklet U} {vars : List Nat} {e : Entry}
    (h1 : enter W prog fn t = .ok (vars, e, t1)) (h2 : r fn vars e t1 = .ok t2) :
    invoke W prog r fn t = .ok (destruct W fn (prog fn).vars vars 0 t2) := by
  simp [invoke, h1, h2]

theorem invoke_enter {U : Type} {W : Nat} {prog : Nat → Body U}
    {r : Nat → List Nat → Entry → Tasklet U → Except Err (Tasklet U)} {fn : Nat}
    {t t1 : Tasklet U} {vars : List Nat} {e : Entry}
    (h1 : enter W prog fn t = .ok (vars, e, t1)) :
    invoke W prog r fn t = (r fn vars e t1).map (destruct W fn (prog fn).vars vars 0) := by
  simp only [invoke, h1]
  cases r fn vars e t1 <;> rfl

/-- A `resume()` made while `_norecurse` is set, with the cursor at the slot that holds
the label of a `TASKLET_WAIT` of `main`: the proxy constructors, `TASKLET_BEGIN`, the
re-entry check of the `TASKLET_WAIT` and the proxy destructors run, and nothing else. -/
theorem invoke_reentrant {U : Type} (W : Nat) (prog : Nat → Body U) (fuel pc : Nat)
    (t : Tasklet U) (hn : t.norecurse = true) (hf : t.fresh = false)
    (hs : t.stack t.sp = Word.lbl 0 pc) (hw : (prog 0).code[pc]? = some Instr.wait) :
    invoke W prog (run W prog (fuel + 1)) 0 t =
      .ok { t with ended := false, nopopv := true, norecurse := false } := by
  have he : enter W prog 0 t =
      .ok (List.replicate (prog 0).vars.length t.sp, Entry.alpha pc, { t with ended := false }) := by
    simp [enter, construct_norecurse W 0 _ 0 t hn hf, TASKLET_BEGIN, hf, hs]
  have hr : run W prog (fuel + 1) 0 (List.replicate (prog 0).vars.length t.sp) (Entry.alpha pc)
      { t with ended := false } =
      .ok { t with ended := false, nopopv := true, norecurse := false } := by
    rw [run, hw]
    simp [hn]
  rw [invoke_ok he hr]
  rw [destruct_nopopv W 0 _ _ 0 _ rfl rfl]

/-- A `TASKLET_WAIT` of `main` whose starter calls `resume()` before it returns: the
invocation goes on with the instruction after the `TASKLET_WAIT`. -/
theorem run_wait_sync {U : Type} (W : Nat) (prog : Nat → Body U) (fuel pc : Nat)
    (vars : List Nat) (t : Tasklet U) (rest : List Bool)
    (hw : (prog 0).code[pc]? = some Instr.wait) (hf : t.fresh = false)
    (hst : t.starters = true :: rest) :
    run W prog (fuel + 2) 0 vars (.at pc) t =
      run W prog fuel 0 vars (.at (pc + 1))
        { t with stack := setSlot t.stack t.sp (.lbl 0 pc), starters := rest, ended := false
                 nopopv := false, norecurse := false } := by
  rw [run, hw]
  simp only [waitStore, hst]
  have h := invoke_reentrant W prog fuel pc
    { t with stack := setSlot t.stack t.sp (.lbl 0 pc), norecurse := true, starters := rest }
    rfl hf (by simp [setSlot]) hw
  rw [h]
  simp only [Bool.false_eq_true, if_false]
  rw [run, hw]
  simp

theorem varWords_int : varWords 8 4 = 1 := by decide

theorem run_alpha_call {U : Type} {W : Nat} {prog : Nat → Body U} {fuel fn pc g : Nat}
    {vars : List Nat} {t t1 t2 : Tasklet U}
    (hc : (prog fn).code[pc]? = some (Instr.call g)) (h1 : callEnter t = .ok t1)
    (h2 : invoke W prog (run W prog fuel) g t1 = .ok t2) :
    run W prog (fuel + 1) fn vars (.alpha pc) t =
      if !(callExit t2).ended then .ok (callExit t2)
      else run W prog fuel fn vars (.at (pc + 1)) (callExit t2) := by
  rw [run, hc]
  simp only [h1, h2]

/-- The first entry of `add_8`: it runs to its first `TASKLET_YIELD`. -/
theorem add_8_first (f : Nat) (st : Nat → Word) (i : Int) (en : Bool) (sts : List Bool)
    (tr : List Event) :
    ∃ t', invoke 8 SimpleTasklet (run 8 SimpleTasklet (f + 4)) 1
        ⟨16, 1, true, false, false, en, st, i, sts, tr⟩ = .ok t' ∧
      t'.stack_size = 16 ∧ t'.sp = 1 ∧ t'.fresh = false ∧ t'.norecurse = false ∧
      t'.nopopv = false ∧ t'.ended = false ∧ t'.stack 0 = st 0 ∧ t'.stack 1 = Word.val 0 ∧
      t'.stack 2 = Word.lbl 1 3 ∧ t'.user = i + 1 := by
  have he : enter 8 SimpleTasklet 1 ⟨16, 1, true, false, false, en, st, i, sts, tr⟩ =
      .ok ([1], Entry.at 0, ⟨16, 2, false, false, false, false, setSlot st 1 (Word.val 0), i, sts,
        tr ++ [Event.ctor 1 0 1]⟩) := by
    simp [enter, construct, push, advance, add16, varWords_int, Except.map, TASKLET_BEGIN,
      SimpleTasklet, add_8, VarDecl.initWord]
  obtain ⟨t2, h2, p1, p2, p3, p4, p5, p6, p7, p8, p9, p10⟩ :
      ∃ t2, run 8 SimpleTasklet (f + 4) 1 [1] (Entry.at 0)
          ⟨16, 2, false, false, false, false, setSlot st 1 (Word.val 0), i, sts,
            tr ++ [Event.ctor 1 0 1]⟩ = .ok t2 ∧
        t2.stack_size = 16 ∧ t2.sp = 2 ∧ t2.fresh = false ∧ t2.norecurse = false ∧
        t2.nopopv = false ∧ t2.ended = false ∧ t2.stack 0 = st 0 ∧ t2.stack 1 = Word.val 0 ∧
        t2.stack 2 = Word.lbl 1 3 ∧ t2.user = i + 1 := by
    simp [run, SimpleTasklet, add_8, setSlot, writeVars, Word.toInt]
  refine ⟨_, invoke_ok he h2, ?_⟩
  simp [destruct, destroy1, SimpleTasklet, add_8, sub16, varWords_int, p1, p2, p3, p4, p5, p6,
    p7, p8, p9, p10]

theorem run_alpha_yield {U : Type} {W : Nat} {prog : Nat → Body U} {fuel fn pc : Nat}
    {vars : List Nat} {t : Tasklet U} (h : (prog fn).code[pc]? = some Instr.yield) :
    run W prog (fuel + 1) fn vars (.alpha pc) t = run W prog fuel fn vars (.at (pc + 1)) t := by
  rw [run, h]

theorem run_at_call {U : Type} {W : Nat} {prog : Nat → Body U} {fuel fn pc g : Nat}
    {vars : List Nat} {t : Tasklet U} (h : (prog fn).code[pc]? = some (Instr.call g)) :
    run W prog (fuel + 1) fn vars (.at pc) t =
      run W prog fuel fn vars (.alpha pc) (callStore fn pc t) := by
  rw [run, h]

/-- A resumption of `add_8` that goes round the loop once more. -/
theorem add_8_next (f : Nat) (st : Nat → Word) (i j : Int) (en : Bool) (sts : List Bool)
    (tr : List Event) (h1 : st 1 = Word.val j) (h2 : st 2 = Word.lbl 1 3) (hj : j + 1 < 8) :
    ∃ t', invoke 8 SimpleTasklet (run 8 SimpleTasklet (f + 6)) 1
        ⟨16, 1, false, false, false, en, st, i, sts, tr⟩ = .ok t' ∧
      t'.stack_size = 16 ∧ t'.sp = 1 ∧ t'.fresh = false ∧ t'.norecurse = false ∧
      t'.nopopv = false ∧ t'.ended = false ∧ t'.stack 0 = st 0 ∧
      t'.stack 1 = Word.val (j + 1) ∧ t'.stack 2 = Word.lbl 1 3 ∧ t'.user = i + 1 := by
  have he : enter 8 SimpleTasklet 1 ⟨16, 1, false, false, false, en, st, i, sts, tr⟩ =
      .ok ([1], Entry.alpha 3, ⟨16, 2, false, false, false, false, st, i, sts, tr⟩) := by
    simp [enter, construct, push, advance, add16, varWords_int, Except.map, TASKLET_BEGIN,
      SimpleTasklet, add_8, h2]
  obtain ⟨t2, hr, p1, p2, p3, p4, p5, p6, p7, p8, p9, p10⟩ :
      ∃ t2, run 8 SimpleTasklet (f + 6) 1 [1] (Entry.alpha 3)
          ⟨16, 2, false, false, false, false, st, i, sts, tr⟩ = .ok t2 ∧
        t2.stack_size = 16 ∧ t2.sp = 2 ∧ t2.fresh = false ∧ t2.norecurse = false ∧
        t2.nopopv = false ∧ t2.ended = false ∧ t2.stack 0 = st 0 ∧
        t2.stack 1 = Word.val (j + 1) ∧ t2.stack 2 = Word.lbl 1 3 ∧ t2.user = i + 1 := by
    simp [run, SimpleTasklet, add_8, setSlot, writeVars, Word.toInt, h1, hj]
  refine ⟨_, invoke_ok he hr, ?_⟩
  simp [destruct, destroy1, SimpleTasklet, add_8, sub16, varWords_int, p1, p2, p3, p4, p5, p6,
    p7, p8, p9, p10]

/-- The resumption of `add_8` after its eighth `TASKLET_YIELD`: the loop ends and
`TASKLET_END` is reached. -/
theorem add_8_last (f : Nat) (st : Nat → Word) (i : Int) (en : Bool) (sts : List Bool)
    (tr : List Event) (h1 : st 1 = Word.val 7) (h2 : st 2 = Word.lbl 1 3) :
    ∃ t', invoke 8 SimpleTasklet (run 8 SimpleTasklet (f + 6)) 1
        ⟨16, 1, false, false, false, en, st, i, sts, tr⟩ = .ok t' ∧
      t'.stack_size = 16 ∧ t'.sp = 1 ∧ t'.fresh = false ∧ t'.norecurse = false ∧
      t'.nopopv = false ∧ t'.ended = true ∧ t'.user = i := by
  have he : enter 8 SimpleTasklet 1 ⟨16, 1, false, false, false, en, st, i, sts, tr⟩ =
      .ok ([1], Entry.alpha 3, ⟨16, 2, false, false, false, false, st, i, sts, tr⟩) := by
    simp [enter, construct, push, advance, add16, varWords_int, Except.map, TASKLET_BEGIN,
      SimpleTasklet, add_8, h2]
  obtain ⟨t2, hr, p1, p2, p3, p4, p5, p6, p7⟩ :
      ∃ t2, run 8 SimpleTasklet (f + 6) 1 [1] (Entry.alpha 3)
          ⟨16, 2, false, false, false, false, st, i, sts, tr⟩ = .ok t2 ∧
        t2.stack_size = 16 ∧ t2.sp = 2 ∧ t2.fresh = false ∧ t2.norecurse = false ∧
        t2.nopopv = false ∧ t2.ended = true ∧ t2.user = i := by
    simp [run, SimpleTasklet, add_8, setSlot, writeVars, Word.toInt, h1]
  refine ⟨_, invoke_ok he hr, ?_⟩
  simp only [destruct, destroy1, SimpleTasklet, add_8, p5, p6, if_true, Bool.not_false, sub16,
    varWords_int, p2, p1, p3, p4, p7]
  simp

theorem run_at_act {U : Type} {W : Nat} {prog : Nat → Body U} {fuel fn pc : Nat}
    {vars : List Nat} {t : Tasklet U} {f : U → List Word → U × List Word}
    (h : (prog fn).code[pc]? = some (Instr.act f)) :
    run W prog (fuel + 1) fn vars (.at pc) t =
      run W prog fuel fn vars (.at (pc + 1))
        { t with user := (f t.user (vars.map t.stack)).1
                 stack := writeVars vars (f t.user (vars.map t.stack)).2 t.stack
                 trace := t.trace ++ [Event.exec fn pc] } := by
  rw [run, h]

/-- The call `start()` on the `SimpleTasklet` object: `main` suspends at its first
`TASKLET_YIELD`, whatever the scratch stack and `_ended` held. -/
theorem simple_start (f : Nat) (mem : Nat → Word) (e : Bool) :
    ∃ t', Tasklet.start 8 SimpleTasklet (f + 1) (SimpleTasklet.t0 mem e) = .ok t' ∧
      SimpleSuspended t' 0 0 := by
  simp [Tasklet.start, Tasklet.main, invoke, enter, construct, destruct, TASKLET_BEGIN, run,
    SimpleTasklet, SimpleTasklet_main, SimpleTasklet.t0, Tasklet.create, SimpleSuspended,
    setSlot]

theorem simple_resume_1 (f : Nat) (t : Tasklet Int) (i : Int) (h : SimpleSuspended t 0 i) :
    ∃ t', Tasklet.resume 8 SimpleTasklet (f + 3) t = .ok t' ∧ SimpleSuspended t' 2 (i + 1) := by
  obtain ⟨h1, h2, h3, h4, h5, h6, h7, h8⟩ := h
  simp [Tasklet.resume, Tasklet.main, invoke, enter, construct, destruct, TASKLET_BEGIN, run,
    SimpleTasklet, SimpleTasklet_main, SimpleSuspended, setSlot, writeVars, h1, h2, h3, h4, h5,
    h6, h7, h8]

theorem simple_resume_2 (f : Nat) (t : Tasklet Int) (i : Int) (h : SimpleSuspended t 2 i) :
    ∃ t', Tasklet.resume 8 SimpleTasklet (f + 3) t = .ok t' ∧ SimpleSuspended t' 4 (i + 2) := by
  obtain ⟨h1, h2, h3, h4, h5, h6, h7, h8⟩ := h
  simp [Tasklet.resume, Tasklet.main, invoke, enter, construct, destruct, TASKLET_BEGIN, run,
    SimpleTasklet, SimpleTasklet_main, SimpleSuspended, setSlot, writeVars, h1, h2, h3, h4, h5,
    h6, h7, h8]

/-- The third `resume()`: `i += 4`, then `TASKLET_CALL(add_8)` enters `add_8`, which
suspends at its `TASKLET_YIELD`; so does `main`. -/
theorem simple_resume_3 (f : Nat) (t : Tasklet Int) (i : Int) (h : SimpleSuspended t 4 i) :
    ∃ t', Tasklet.resume 8 SimpleTasklet (f + 8) t = .ok t' ∧ InAdd8 t' 0 (i + 4 + 1) := by
  obtain ⟨sz, sp, fr, nr, np, en, st, us, sts, tr⟩ := t
  obtain ⟨h1, h2, h3, h4, h5, h6, h7, h8⟩ := h
  simp only at h1 h2 h3 h4 h5 h6 h7 h8
  subst h1 h2 h3 h4 h5 h6 h8
  have hce : callEnter (callStore 0 6
      (⟨16, 0, false, false, false, false, st, us + 4, sts, tr ++ [Event.exec 0 5]⟩ : Tasklet Int)) =
      .ok ⟨16, 1, true, false, false, true, setSlot st 0 (Word.lbl 0 6), us + 4, sts,
        tr ++ [Event.exec 0 5]⟩ := by
    simp [callEnter, callStore, advance, add16]
  obtain ⟨t2, hinv, p1, p2, p3, p4, p5, p6, p7, p8, p9, p10⟩ :=
    add_8_first f (setSlot st 0 (Word.lbl 0 6)) (us + 4) true sts (tr ++ [Event.exec 0 5])
  have hres : Tasklet.resume 8 SimpleTasklet (f + 8) ⟨16, 0, false, false, false, false, st, us, sts, tr⟩ =
      .ok (callExit t2) := by
    unfold Tasklet.resume
    rw [main_nolocals 8 SimpleTasklet _ _ rfl]
    simp only [TASKLET_BEGIN, h7, Bool.false_eq_true, if_false, if_true]
    rw [run_alpha_yield rfl, run_at_act rfl, run_at_call rfl]
    simp only [List.map_nil, writeVars]
    rw [run_alpha_call rfl hce hinv]
    simp [callExit, p6]
  refine ⟨_, hres, ?_⟩
  simp [InAdd8, SimpleSuspended, callExit, sub16, p1, p2, p3, p4, p5, p6, p7, p8, p9, p10,
    setSlot]

/-- A `resume()` while `add_8` is suspended in its loop with `*j + 1 < 8`: the loop goes
round once more and both functions suspend again. -/
theorem simple_resume_loop (f : Nat) (t : Tasklet Int) (j i : Int) (h : InAdd8 t j i)
    (hj : j + 1 < 8) :
    ∃ t', Tasklet.resume 8 SimpleTasklet (f + 8) t = .ok t' ∧ InAdd8 t' (j + 1) (i + 1) := by
  obtain ⟨sz, sp, fr, nr, np, en, st, us, sts, tr⟩ := t
  obtain ⟨⟨h1, h2, h3, h4, h5, h6, h7, h8⟩, h9, h10⟩ := h
  simp only at h1 h2 h3 h4 h5 h6 h7 h8 h9 h10
  subst h1 h2 h3 h4 h5 h6 h8
  have hce : callEnter (⟨16, 0, false, false, false, false, st, us, sts, tr⟩ : Tasklet Int) =
      .ok ⟨16, 1, false, false, false, true, st, us, sts, tr⟩ := by
    simp [callEnter, advance, add16]
  obtain ⟨t2, hinv, p1, p2, p3, p4, p5, p6, p7, p8, p9, p10⟩ :=
    add_8_next (f + 1) st us j true sts tr h9 h10 hj
  have hres : Tasklet.resume 8 SimpleTasklet (f + 8)
      ⟨16, 0, false, false, false, false, st, us, sts, tr⟩ = .ok (callExit t2) := by
    unfold Tasklet.resume
    rw [main_nolocals 8 SimpleTasklet _ _ rfl]
    simp only [TASKLET_BEGIN, h7, Bool.false_eq_true, if_false, if_true]
    rw [run_alpha_call rfl hce hinv]
    simp [callExit, p6]
  refine ⟨_, hres, ?_⟩
  simp [InAdd8, SimpleSuspended, callExit, sub16, p1, p2, p3, p4, p5, p6, p7, p8, p9, p10, h7]

/-- The `resume()` after the eighth `TASKLET_YIELD` of `add_8`: `add_8` ends, `main`
continues past the `TASKLET_CALL` and ends. -/
theorem simple_resume_last (f : Nat) (t : Tasklet Int) (i : Int) (h : InAdd8 t 7 i) :
    ∃ t', Tasklet.resume 8 SimpleTasklet (f + 8) t = .ok t' ∧ t'.ended = true ∧ t'.user = i := by
  obtain ⟨sz, sp, fr, nr, np, en, st, us, sts, tr⟩ := t
  obtain ⟨⟨h1, h2, h3, h4, h5, h6, h7, h8⟩, h9, h10⟩ := h
  simp only at h1 h2 h3 h4 h5 h6 h7 h8 h9 h10
  subst h1 h2 h3 h4 h5 h6 h8
  have hce : callEnter (⟨16, 0, false, false, false, false, st, us, sts, tr⟩ : Tasklet Int) =
      .ok ⟨16, 1, false, false, false, true, st, us, sts, tr⟩ := by
    simp [callEnter, advance, add16]
  obtain ⟨t2, hinv, p1, p2, p3, p4, p5, p6, p7⟩ :=
    add_8_last (f + 1) st us true sts tr h9 h10
  have hres : Tasklet.resume 8 SimpleTasklet (f + 8)
      ⟨16, 0, false, false, false, false, st, us, sts, tr⟩ =
      run 8 SimpleTasklet (f + 7) 0 [] (.at 7) (callExit t2) := by
    unfold Tasklet.resume
    rw [main_nolocals 8 SimpleTasklet _ _ rfl]
    simp only [TASKLET_BEGIN, h7, Bool.false_eq_true, if_false, if_true]
    rw [run_alpha_call rfl hce hinv]
    simp [callExit, p6]
  rw [hres]
  simp [run, SimpleTasklet, SimpleTasklet_main, callExit, p7]

theorem resumes_succ_of {U : Type} {W : Nat} {prog : Nat → Body U} {fuel : Nat}
    {t t1 : Tasklet U} (h : Tasklet.resume W prog fuel t = .ok t1) (n : Nat) :
    resumes W prog fuel (n + 1) t = resumes W prog fuel n t1 := by
  rw [resumes, h]

theorem whileRunning_succ_of {U : Type} {W : Nat} {prog : Nat → Body U} {fuel : Nat}
    {t t1 : Tasklet U} (h : Tasklet.resume W prog fuel t = .ok t1) (he : t.ended = false)
    (n : Nat) :
    whileRunning W prog fuel (n + 1) t = whileRunning W prog fuel n t1 := by
  rw [whileRunning]
  simp [Tasklet.is_running, he, h]

theorem whileRunning_ended {U : Type} {W : Nat} {prog : Nat → Body U} {fuel : Nat}
    {t : Tasklet U} (he : t.ended = true) (n : Nat) :
    whileRunning W prog fuel n t = .ok t := by
  cases n <;> simp [whileRunning, Tasklet.is_running, he]

theorem drive_of {U : Type} {W : Nat} {prog : Nat → Body U} {fuel : Nat}
    {t t1 : Tasklet U} (h : Tasklet.start W prog fuel t = .ok t1) (n : Nat) :
    drive W prog fuel n t = whileRunning W prog fuel n t1 := by
  unfold drive
  rw [h]

/-- C5. For the `SimpleTasklet` of the tests, whatever its uninitialised scratch stack and
`_ended` bit hold: after `start()` and ten calls of `resume()`, `i == 15` (and the tasklet
is still running); the loop `start(); while (is_running()) resume();` terminates, after
the eleventh `resume()`, with `i == 15`.  Eight units of fuel per invocation suffice. -/
theorem simple_tasklet_reaches_15 (mem : Nat → Word) (e : Bool) (fuel n : Nat)
    (hfuel : 8 ≤ fuel) (hn : 11 ≤ n) :
    observe (startResumes 8 SimpleTasklet fuel 10 (SimpleTasklet.t0 mem e)) = some (15, true) ∧
      observe (drive 8 SimpleTasklet fuel n (SimpleTasklet.t0 mem e)) = some (15, false) := by
  obtain ⟨f, rfl⟩ : ∃ f, fuel = f + 8 := ⟨fuel - 8, by omega⟩
  obtain ⟨m, rfl⟩ : ∃ m, n = m + 11 := ⟨n - 11, by omega⟩
  obtain ⟨s0, e0, i0⟩ := simple_start (f + 7) mem e
  obtain ⟨s1, e1, i1⟩ := simple_resume_1 (f + 5) s0 0 i0
  obtain ⟨s2, e2, i2⟩ := simple_resume_2 (f + 5) s1 _ i1
  obtain ⟨s3, e3, i3⟩ := simple_resume_3 f s2 _ i2
  obtain ⟨s4, e4, i4⟩ := simple_resume_loop f s3 _ _ i3 (by norm_num)
  obtain ⟨s5, e5, i5⟩ := simple_resume_loop f s4 _ _ i4 (by norm_num)
  obtain ⟨s6, e6, i6⟩ := simple_resume_loop f s5 _ _ i5 (by norm_num)
  obtain ⟨s7, e7, i7⟩ := simple_resume_loop f s6 _ _ i6 (by norm_num)
  obtain ⟨s8, e8, i8⟩ := simple_resume_loop f s7 _ _ i7 (by norm_num)
  obtain ⟨s9, e9, i9⟩ := simple_resume_loop f s8 _ _ i8 (by norm_num)
  obtain ⟨s10, e10, i10⟩ := simple_resume_loop f s9 _ _ i9 (by norm_num)
  obtain ⟨s11, e11, i11, u11⟩ := simple_resume_last f s10 _ (by norm_num at i10 ⊢; exact i10)
  constructor
  · rw [startResumes_of e0, resumes_succ_of e1, resumes_succ_of e2, resumes_succ_of e3,
      resumes_succ_of e4, resumes_succ_of e5, resumes_succ_of e6, resumes_succ_of e7,
      resumes_succ_of e8, resumes_succ_of e9, resumes_succ_of e10]
    have hu : s10.user = 15 := i10.1.2.2.2.2.2.2.2.trans (by norm_num)
    have he : s10.ended = false := i10.1.2.2.2.2.2.1
    simp [resumes, observe, Tasklet.is_running, hu, he]
  · rw [drive_of e0, whileRunning_succ_of e1 i0.2.2.2.2.2.1,
      whileRunning_succ_of e2 i1.2.2.2.2.2.1, whileRunning_succ_of e3 i2.2.2.2.2.2.1,
      whileRunning_succ_of e4 i3.1.2.2.2.2.2.1, whileRunning_succ_of e5 i4.1.2.2.2.2.2.1,
      whileRunning_succ_of e6 i5.1.2.2.2.2.2.1, whileRunning_succ_of e7 i6.1.2.2.2.2.2.1,
      whileRunning_succ_of e8 i7.1.2.2.2.2.2.1, whileRunning_succ_of e9 i8.1.2.2.2.2.2.1,
      whileRunning_succ_of e10 i9.1.2.2.2.2.2.1, whileRunning_succ_of e11 i10.1.2.2.2.2.2.1,
      whileRunning_ended i11]
    have hu : s11.user = 15 := u11.trans (by norm_num)
    simp [observe, Tasklet.is_running, hu, i11]

/-- C5, for a scratch stack of zeros and `_ended` initially set, with 100 units of fuel
per invocation and the loop cut off after 20 iterations. -/
theorem simple_tasklet_reaches_15_witness :
    8 ≤ 100 ∧ 11 ≤ 20 ∧
    observe (startResumes 8 SimpleTasklet 100 10 (SimpleTasklet.t0 (fun _ => Word.val 0) true)) =
      some (15, true) ∧
    observe (drive 8 SimpleTasklet 100 20 (SimpleTasklet.t0 (fun _ => Word.val 0) true)) =
      some (15, false) :=
  ⟨by decide, by decide,
    simple_tasklet_reaches_15 (fun _ => Word.val 0) true 100 20 (by decide) (by decide)⟩

/-! ### `WaitTasklet` -/

theorem run_at_br {U : Type} {W : Nat} {prog : Nat → Body U} {fuel fn pc target : Nat}
    {vars : List Nat} {t : Tasklet U} {c : U → List Word → Bool}
    (h : (prog fn).code[pc]? = some (Instr.br c target)) :
    run W prog (fuel + 1) fn vars (.at pc) t =
      run W prog fuel fn vars (.at (if c t.user (vars.map t.stack) then target else pc + 1)) t := by
  rw [run, h]

theorem run_at_tend {U : Type} {W : Nat} {prog : Nat → Body U} {fuel fn pc : Nat}
    {vars : List Nat} {t : Tasklet U} (h : (prog fn).code[pc]? = some Instr.tend) :
    run W prog (fuel + 1) fn vars (.at pc) t =
      run W prog fuel fn vars (.at (pc + 1))
        { t with ended := true, fresh := false, trace := t.trace ++ [Event.tend fn] } := by
  rw [run, h]

theorem run_at_none {U : Type} {W : Nat} {prog : Nat → Body U} {fuel fn pc : Nat}
    {vars : List Nat} {t : Tasklet U} (h : (prog fn).code[pc]? = none) :
    run W prog (fuel + 1) fn vars (.at pc) t = .ok t := by
  rw [run, h]

/-- One round of the loop of `WaitTasklet::main` with a starter that resumes
synchronously: `*j = i`, the `TASKLET_WAIT`, the check (which finds `*j == i`), `i += 1`,
all within the same invocation. -/
theorem wait_loop_round (f : Nat) (st : Nat → Word) (n : Nat) (log : List (Int × Int))
    (en : Bool) (sts : List Bool) (tr : List Event) (hn : n < 10) :
    ∃ st' tr', run 8 WaitTasklet (f + 8) 0 [0] (.at 1)
        ⟨16, 1, false, false, false, en, st, ((n : Int), log), true :: sts, tr⟩ =
      run 8 WaitTasklet f 0 [0] (.at 1)
        ⟨16, 1, false, false, false, false, st', ((n : Int) + 1, log ++ [((n : Int), (n : Int))]),
          sts, tr'⟩ := by
  have hlt : ((n : Int) < 10) := by exact_mod_cast hn
  rw [run_at_br rfl]
  simp only [hlt, decide_True, Bool.not_true, Bool.false_eq_true, if_false]
  rw [run_at_act rfl]
  simp only [List.map, writeVars]
  rw [run_wait_sync 8 WaitTasklet _ 3 [0] _ sts rfl rfl rfl]
  simp only []
  rw [run_at_br rfl]
  simp only [List.map, setSlot, List.headD, Nat.zero_ne_one, if_false, if_true, decide_True,
    Bool.not_true, Bool.false_eq_true, Nat.reduceAdd]
  rw [run_at_act rfl, run_at_act rfl, run_at_br rfl]
  simp only [if_true, List.map, List.headD, setSlot, Nat.zero_ne_one, if_false, Word.toInt,
    writeVars]
  exact ⟨_, _, rfl⟩

/-- The rest of the loop of `WaitTasklet::main` from iteration `n` on, when every starter
resumes synchronously: all within the same invocation, up to `TASKLET_END`. -/
theorem wait_loop : ∀ (k n : Nat), n + k = 10 → ∀ (f : Nat) (st : Nat → Word)
    (log : List (Int × Int)) (en : Bool) (sts : List Bool) (tr : List Event),
    ∃ t', run 8 WaitTasklet (f + (8 * k + 3)) 0 [0] (.at 1)
        ⟨16, 1, false, false, false, en, st, ((n : Int), log), List.replicate k true ++ sts, tr⟩ =
        .ok t' ∧
      t'.user = (10, log ++ checks n k) ∧ t'.ended = true ∧ t'.sp = 1 ∧ t'.nopopv = false ∧
      t'.stack_size = 16 ∧ t'.fresh = false ∧ t'.norecurse = false ∧ t'.starters = sts := by
  intro k
  induction k with
  | zero =>
    intro n hn f st log en sts tr
    have h10 : n = 10 := by omega
    subst h10
    rw [run_at_br rfl]
    simp only [Nat.cast_ofNat, lt_self_iff_false, decide_False, Bool.not_false, if_true]
    rw [run_at_tend rfl, run_at_none rfl]
    simp [checks]
  | succ k ih =>
    intro n hn f st log en sts tr
    have hlt : n < 10 := by omega
    obtain ⟨st', tr', hround⟩ := wait_loop_round (f + (8 * k + 3)) st n log en
      (List.replicate k true ++ sts) tr hlt
    have hf : f + (8 * (k + 1) + 3) = f + (8 * k + 3) + 8 := by omega
    obtain ⟨t', h1, h2, h3⟩ := ih (n + 1) (by omega) f st' (log ++ [((n : Int), (n : Int))])
      false sts tr'
    refine ⟨t', ?_, ?_, h3⟩
    · rw [hf, List.replicate_succ, List.cons_append, hround]
      rw [← h1]
      simp
    · rw [h2]
      simp [checks]

/-- C6. For the `WaitTasklet` of the tests, whose starter resumes synchronously, whatever
its uninitialised scratch stack and `_ended` bit hold: `start()` returns with the tasklet
ended, having run the check after the `TASKLET_WAIT` once for each `i = 0, ..., 9`, in
this order, each time with `*j == i`; so the loop `while (is_running()) resume();` of the
driver terminates at once.  84 units of fuel suffice. -/
theorem wait_tasklet_checks_each_iteration (mem : Nat → Word) (e : Bool) (rest : List Bool)
    (fuel n : Nat) (hfuel : 84 ≤ fuel) :
    ∃ t, Tasklet.start 8 WaitTasklet fuel
        (Tasklet.create 8 mem 128 e ((0 : Int), []) (List.replicate 10 true ++ rest)) = .ok t ∧
      t.user = (10, [(0, 0), (1, 1), (2, 2), (3, 3), (4, 4), (5, 5), (6, 6), (7, 7), (8, 8),
        (9, 9)]) ∧
      t.is_running = false ∧
      drive 8 WaitTasklet fuel n
        (Tasklet.create 8 mem 128 e ((0 : Int), []) (List.replicate 10 true ++ rest)) = .ok t := by
  obtain ⟨f, rfl⟩ : ∃ f, fuel = f + (8 * 10 + 3) + 1 := ⟨fuel - 84, by omega⟩
  have he : enter 8 WaitTasklet 0
      (Tasklet.create 8 mem 128 e ((0 : Int), []) (List.replicate 10 true ++ rest)) =
      .ok ([0], Entry.at 0, ⟨16, 1, false, false, false, false, setSlot mem 0 (Word.val 0),
        ((0 : Int), []), List.replicate 10 true ++ rest, [Event.ctor 0 0 0]⟩) := by
    simp [enter, construct, push, advance, add16, varWords_int, Except.map, TASKLET_BEGIN,
      WaitTasklet, WaitTasklet_main, VarDecl.initWord, Tasklet.create]
  obtain ⟨t2, h1, h2, h3, h4, h5, h6, h7, h8, h9⟩ := wait_loop 10 0 rfl f
    (writeVars [0] [setSlot mem 0 (Word.val 0) 0] (setSlot mem 0 (Word.val 0))) [] false rest
    ([Event.ctor 0 0 0] ++ [Event.exec 0 0])
  have hr : run 8 WaitTasklet (f + (8 * 10 + 3) + 1) 0 [0] (Entry.at 0)
      ⟨16, 1, false, false, false, false, setSlot mem 0 (Word.val 0),
        ((0 : Int), []), List.replicate 10 true ++ rest, [Event.ctor 0 0 0]⟩ = .ok t2 := by
    rw [run_at_act rfl]
    simp only [List.map]
    exact h1
  have hstart : Tasklet.start 8 WaitTasklet (f + (8 * 10 + 3) + 1)
      (Tasklet.create 8 mem 128 e ((0 : Int), []) (List.replicate 10 true ++ rest)) =
      .ok (destruct 8 0 (WaitTasklet 0).vars [0] 0 t2) := by
    unfold Tasklet.start Tasklet.main
    exact invoke_ok he hr
  have hended : (destruct 8 0 (WaitTasklet 0).vars [0] 0 t2).ended = true := by
    simp only [destruct, destroy1, WaitTasklet, WaitTasklet_main, h3, h5, if_true,
      Bool.not_false]
  refine ⟨_, hstart, ?_, ?_, ?_⟩
  · simp only [destruct, destroy1, WaitTasklet, WaitTasklet_main, h3, h5, if_true,
      Bool.not_false, h2]
    simp [checks]
  · simp [Tasklet.is_running, hended]
  · rw [drive_of hstart, whileRunning_ended hended]

/-- C6, for a scratch stack of zeros and `_ended` initially set, with 100 units of fuel
and the driver loop cut off after 5 iterations. -/
theorem wait_tasklet_checks_each_iteration_witness :
    84 ≤ 100 ∧
    observe (drive 8 WaitTasklet 100 5
      (Tasklet.create 8 (fun _ => Word.val 0) 128 true ((0 : Int), [])
        (List.replicate 10 true ++ []))) =
      some ((10, [(0, 0), (1, 1), (2, 2), (3, 3), (4, 4), (5, 5), (6, 6), (7, 7), (8, 8),
        (9, 9)]), false) := by
  obtain ⟨t, _, hu, hr, hd⟩ := wait_tasklet_checks_each_iteration (fun _ => Word.val 0) true []
    100 5 (by decide)
  refine ⟨by decide, ?_⟩
  rw [hd]
  simp only [observe, hu, hr]

/-! ### `_ended` after a completed `TASKLET_CALL` -/

/-- C2, at the failing input: `main` is `TASKLET_CALL(f); TASKLET_YIELD(); TASKLET_END()`
and `f` ends at once.  After `start()` the log holds only the `TASKLET_END` of `f` - `main`
is suspended at its `TASKLET_YIELD` - and yet `is_running()` is false. -/
theorem is_running_false_at_yield_after_call :
    observeLog (Tasklet.start 8 (callThenYield []) 20
      (Tasklet.create 8 (fun _ => Word.val 0) 128 false () [])) =
      some (false, [Event.tend 1]) := by
  decide!

/-- C3, at the failing input: as for C2, with a local `TaskletVar<int> j(this, 0)` in
`main`.  In the invocation `start()`, which suspends `main` at its `TASKLET_YIELD`, the
value of `j` is constructed and also destructed; `is_running()` is false, so the driver
stops, and `main` never reaches its `TASKLET_END`. -/
theorem local_destructed_at_yield_after_call :
    observeLog (Tasklet.start 8 (callThenYield [{ bytes := 4, init := some 0 }]) 20
      (Tasklet.create 8 (fun _ => Word.val 0) 128 false () [])) =
      some (false, [Event.ctor 0 0 0, Event.tend 1, Event.dtor 0 0 0]) := by
  decide!

/-- C7, at the failing input: the constructor does not assign `_ended`, so
`is_running()` right after construction is the negation of the bit that the storage held;
it is false when that bit was set. -/
theorem is_running_after_create {U : Type} (W : Nat) (mem : Nat → Word) (bytes : Nat)
    (prior_ended : Bool) (u : U) (st : List Bool) :
    (Tasklet.create W mem bytes prior_ended u st).is_running = !prior_ended ∧
      (Tasklet.create W mem bytes true u st).is_running = false :=
  ⟨rfl, rfl⟩

/-- C8, at the failing input: the callee `f` of `main` suspends at a `TASKLET_YIELD` that
follows a completed `TASKLET_CALL(g)`.  In the invocation `start()`, in which `f` suspends
(the log shows neither the statement after its `TASKLET_YIELD` nor its `TASKLET_END`),
`main` continues past its `TASKLET_CALL(f)`, executes the statement after it and its
`TASKLET_END`, and `is_running()` is false. -/
theorem call_passed_while_callee_suspended :
    observeLog (Tasklet.start 8 calleeYieldsAfterCall 20
      (Tasklet.create 8 (fun _ => Word.val 0) 128 false () [])) =
      some (false, [Event.tend 2, Event.exec 0 1, Event.tend 0]) := by
  decide!

/-! ### The cursor: `_TSKL_ALIGN`, `push` and the capacity assertion -/

/-- For a word size `W = 2^k` and a size `n` for which `n + W - 1` does not overflow
`size_t`, `_TSKL_ALIGN(n)` is `W * ceil(n / W)`. -/
theorem TSKL_ALIGN_eq (k n : Nat) (h : n + 2 ^ k - 1 < 2 ^ (8 * 2 ^ k)) :
    _TSKL_ALIGN (2 ^ k) n = 2 ^ k * ((n + 2 ^ k - 1) / 2 ^ k) := by
  have hkb : k ≤ 8 * 2 ^ k := by
    have := Nat.lt_two_pow k
    omega
  have hW : 2 ^ k - 1 < 2 ^ (8 * 2 ^ k) := by
    have h1 : 2 ^ k ≤ 2 ^ (8 * 2 ^ k) := Nat.pow_le_pow_right (by decide) hkb
    have h2 : 0 < 2 ^ k := Nat.two_pow_pos k
    omega
  have hr : 2 ^ k * ((n + 2 ^ k - 1) / 2 ^ k) = ((n + 2 ^ k - 1) >>> k) <<< k := by
    rw [Nat.shiftLeft_eq, Nat.shiftRight_eq_div_pow, Nat.mul_comm]
  unfold _TSKL_ALIGN
  rw [Nat.mod_eq_of_lt h, Nat.sub_sub, Nat.add_comm 1 (2 ^ k - 1), hr]
  apply Nat.eq_of_testBit_eq
  intro i
  rw [Nat.testBit_and, Nat.testBit_two_pow_sub_succ hW i, Nat.testBit_two_pow_sub_one,
    Nat.testBit_shiftLeft, Nat.testBit_shiftRight]
  by_cases hik : i < k
  · have : ¬ (i ≥ k) := by omega
    simp [hik, this]
  · have hge : i ≥ k := by omega
    have hidx : k + (i - k) = i := by omega
    by_cases hib : i < 8 * 2 ^ k
    · simp [hik, hge, hidx, hib]
    · have hfalse : (n + 2 ^ k - 1).testBit i = false := by
        apply Nat.testBit_lt_two_pow
        exact Nat.lt_of_lt_of_le h (Nat.pow_le_pow_right (by decide) (by omega))
      simp [hik, hge, hidx, hib, hfalse]

/-- C9, as stated, fails: on a scratch stack of one word with the cursor at `0`, an
advance by one word lands exactly on the capacity (`0 + 1 <= 1`, the capacity is not
exceeded) and the allocation of an `int`, like the slot reservation of `TASKLET_CALL`,
aborts. -/
theorem advance_onto_capacity_aborts :
    (Tasklet.atCursor 1 0).sp + 1 ≤ (Tasklet.atCursor 1 0).stack_size ∧
      varWords 8 4 = 1 ∧
      errorOf (push 8 (Tasklet.atCursor 1 0) 4) = some Err.assertFail ∧
      errorOf (callEnter (Tasklet.atCursor 1 0)) = some Err.assertFail := by
  decide!

/-- C9 (amended). An advance of the cursor by `k` words that does not wrap round the
16-bit cursor (`_sp + k < 2^16`) aborts if and only if the advanced cursor is not strictly
below the capacity; otherwise it returns with the cursor advanced by `k`, strictly below
the capacity, and nothing else changed.  The allocation of a `TaskletVar` outside a
re-entrant resume is such an advance by the rounded word count, and the slot reservation of
`TASKLET_CALL` is such an advance by `1`. -/
theorem advance_aborts_iff_not_below_capacity {U : Type} (t : Tasklet U) (k : Nat)
    (hnw : t.sp + k < 65536) :
    (advance t k = .error Err.assertFail ↔ t.stack_size ≤ t.sp + k) ∧
      (advance t k = .ok { t with sp := t.sp + k } ↔ t.sp + k < t.stack_size) ∧
      (∀ t', advance t k = .ok t' → t'.sp < t'.stack_size ∧ t'.sp ≤ t'.stack_size) ∧
      (∀ W bytes, t.norecurse = false →
        push W t bytes = (advance t (varWords W bytes)).map (fun t1 => (t.sp, t1))) ∧
      callEnter t = (advance t 1).map (fun t1 => { t1 with ended := true }) := by
  have hmod : add16 t.sp k = t.sp + k := by
    unfold add16
    exact Nat.mod_eq_of_lt hnw
  refine ⟨?_, ?_, ?_, ?_, ?_⟩
  · by_cases h : t.sp + k < t.stack_size
    · simp [advance, hmod, h]
    · simp [advance, hmod, h]
      omega
  · by_cases h : t.sp + k < t.stack_size
    · simp [advance, hmod, h]
    · simp [advance, hmod, h]
  · intro t' ht'
    by_cases h : t.sp + k < t.stack_size
    · simp [advance, hmod, h] at ht'
      subst ht'
      simp only
      omega
    · simp [advance, hmod, h] at ht'
  · intro W bytes hn
    simp [push, hn]
  · unfold callEnter
    cases advance t 1 <;> rfl

/-- C9 (amended), on a scratch stack of sixteen words with the cursor at `0` and an
advance by one word. -/
theorem advance_aborts_iff_not_below_capacity_witness :
    (Tasklet.atCursor 16 0).sp + 1 < 65536 ∧
      (advance (Tasklet.atCursor 16 0) 1 = .ok { Tasklet.atCursor 16 0 with sp := 0 + 1 } ↔
        0 + 1 < 16) :=
  ⟨by decide, (advance_aborts_iff_not_below_capacity (Tasklet.atCursor 16 0) 1 (by decide)).2.1⟩

/-- C12. The constructor of a `TaskletVar`, with an initial value or without, first runs
`push`, which binds the proxy to the slot at the cursor and writes neither the scratch
stack nor a flag; it then writes the slot (and constructs the value) if `_fresh` is set,
and leaves the scratch stack exactly as it was if `_fresh` is clear.  The destructor runs
the destructor of the stored value if `_ended` is set, and does not if it is clear; it
never writes the scratch stack. -/
theorem taskletvar_constructs_iff_fresh {U : Type} (W fn k : Nat) (d : VarDecl) (var : Nat)
    (t : Tasklet U) :
    (construct W fn [d] k t =
      match push W t d.bytes with
      | .error e => .error e
      | .ok (v, t1) =>
        .ok ([v], if t.fresh then
          { t1 with stack := setSlot t.stack v d.initWord
                    trace := t.trace ++ [Event.ctor fn k v] }
        else t1)) ∧
      (match push W t d.bytes with
        | .error _ => True
        | .ok (v, t1) => v = t.sp ∧ t1.stack = t.stack ∧ t1.trace = t.trace ∧
            t1.fresh = t.fresh ∧ t1.ended = t.ended) ∧
      ((destroy1 W fn k d var t).trace =
        if t.ended then t.trace ++ [Event.dtor fn k var] else t.trace) ∧
      (destroy1 W fn k d var t).stack = t.stack := by
  have hpush : match push W t d.bytes with
      | .error _ => True
      | .ok (v, t1) => v = t.sp ∧ t1.stack = t.stack ∧ t1.trace = t.trace ∧
          t1.fresh = t.fresh ∧ t1.ended = t.ended := by
    unfold push advance
    cases t.norecurse
    · by_cases h : add16 t.sp (varWords W d.bytes) < t.stack_size
      · simp [h, Except.map]
      · simp [h, Except.map]
    · simp
  refine ⟨?_, hpush, ?_, ?_⟩
  · cases hp : push W t d.bytes with
    | error e => simp [construct, hp]
    | ok p =>
      obtain ⟨v, t1⟩ := p
      rw [hp] at hpush
      obtain ⟨_, h2, h3, h4, _⟩ := hpush
      cases hf : t.fresh
      · simp [construct, hp, h4, hf]
      · simp [construct, hp, h4, hf, h2, h3]
  · unfold destroy1
    cases he : t.ended <;> cases hn : t.nopopv <;> simp [he, hn]
  · unfold destroy1
    cases he : t.ended <;> cases hn : t.nopopv <;> simp [he, hn]

/-- C17, as stated, fails: over a buffer of `65536` words of `8` bytes the capacity is
`0`, not `65536`. -/
theorem create_truncates_capacity :
    (Tasklet.create 8 (fun _ => Word.val 0) (65536 * 8) false () []).stack_size = 0 ∧
      65536 * 8 / 8 = 65536 := by
  decide

/-- C17 (amended). The constructor executes no body code (the log is empty, the members
and the scratch stack are those passed in) and yields cursor `0`, `_fresh` set,
`_norecurse` and `_nopopv` clear, and the capacity `floor(n / W)` reduced modulo `2^16`:
`floor(n / W)` itself for a buffer of fewer than `65536` words. -/
theorem create_initial_state {U : Type} (W : Nat) (mem : Nat → Word) (n : Nat) (e : Bool)
    (u : U) (st : List Bool) :
    (Tasklet.create W mem n e u st).sp = 0 ∧
      (Tasklet.create W mem n e u st).fresh = true ∧
      (Tasklet.create W mem n e u st).norecurse = false ∧
      (Tasklet.create W mem n e u st).nopopv = false ∧
      (Tasklet.create W mem n e u st).trace = [] ∧
      (Tasklet.create W mem n e u st).user = u ∧
      (Tasklet.create W mem n e u st).stack = mem ∧
      (Tasklet.create W mem n e u st).stack_size = (n / W) % 65536 ∧
      (Tasklet.create W mem n e u st).stack_size =
        if n / W < 65536 then n / W else (n / W) % 65536 := by
  refine ⟨rfl, rfl, rfl, rfl, rfl, rfl, rfl, rfl, ?_⟩
  by_cases h : n / W < 65536
  · simp [Tasklet.create, h, Nat.mod_eq_of_lt h]
  · simp [Tasklet.create, h]

/-- C16. For a word size `W = 2^k` and a size `n` for which `n + W - 1` does not overflow
`size_t`: `_TSKL_ALIGN(n)` is a multiple of `W`, at least `n`, and no multiple of `W` that
is at least `n` is smaller; `_TSKL_ALIGN(n) / W` is `ceil(n / W)`; `_TSKL_ALIGN(n)` is `n`
when `n` is a multiple of `W`; and the word count is at least `1` when `n >= 1`. -/
theorem TSKL_ALIGN_least_multiple (k n : Nat) (h : n + 2 ^ k - 1 < 2 ^ (8 * 2 ^ k)) :
    2 ^ k ∣ _TSKL_ALIGN (2 ^ k) n ∧ n ≤ _TSKL_ALIGN (2 ^ k) n ∧
      (∀ m, 2 ^ k ∣ m → n ≤ m → _TSKL_ALIGN (2 ^ k) n ≤ m) ∧
      _TSKL_ALIGN (2 ^ k) n / 2 ^ k = (n + 2 ^ k - 1) / 2 ^ k ∧
      (2 ^ k ∣ n → _TSKL_ALIGN (2 ^ k) n = n) ∧
      (1 ≤ n → 1 ≤ _TSKL_ALIGN (2 ^ k) n / 2 ^ k) := by
  have hW : 0 < 2 ^ k := Nat.two_pow_pos k
  have hA := TSKL_ALIGN_eq k n h
  have hq : _TSKL_ALIGN (2 ^ k) n / 2 ^ k = (n + 2 ^ k - 1) / 2 ^ k := by
    rw [hA, Nat.mul_div_cancel_left _ hW]
  have hlow : n ≤ 2 ^ k * ((n + 2 ^ k - 1) / 2 ^ k) := by
    have := Nat.lt_mul_div_succ (n + 2 ^ k - 1) hW
    rw [Nat.mul_add, Nat.mul_one] at this
    omega
  have hleast : ∀ m, 2 ^ k ∣ m → n ≤ m → 2 ^ k * ((n + 2 ^ k - 1) / 2 ^ k) ≤ m := by
    intro m hm hnm
    obtain ⟨j, rfl⟩ := hm
    apply Nat.mul_le_mul_left
    have hlt : n + 2 ^ k - 1 < 2 ^ k * (j + 1) := by
      rw [Nat.mul_add, Nat.mul_one]
      omega
    have := Nat.div_lt_of_lt_mul hlt
    omega
  refine ⟨?_, ?_, ?_, hq, ?_, ?_⟩
  · rw [hA]; exact Nat.dvd_mul_right _ _
  · rw [hA]; exact hlow
  · intro m hm hnm
    rw [hA]; exact hleast m hm hnm
  · intro hdvd
    rw [hA]
    exact Nat.le_antisymm (hleast n hdvd (Nat.le_refl n)) hlow
  · intro hn
    rw [hq]
    apply (Nat.le_div_iff_mul_le hW).mpr
    omega

/-- C16, for an `int` (`4` bytes) and for a value of `16` bytes on a platform with 8-byte
words: one word and two words. -/
theorem TSKL_ALIGN_least_multiple_witness :
    4 + 2 ^ 3 - 1 < 2 ^ (8 * 2 ^ 3) ∧ _TSKL_ALIGN (2 ^ 3) 4 = 8 ∧
      _TSKL_ALIGN (2 ^ 3) 4 / 2 ^ 3 = (4 + 2 ^ 3 - 1) / 2 ^ 3 := by
  have h := TSKL_ALIGN_least_multiple 3 4 (by decide)
  exact ⟨by decide, by decide, h.2.2.2.1⟩

/-! ### What an invocation leaves of the cursor and the flags -/

theorem construct_props {U : Type} (W fn : Nat) (ds : List VarDecl) :
    ∀ (k : Nat) (t : Tasklet U) (vars : List Nat) (t1 : Tasklet U),
      construct W fn ds k t = .ok (vars, t1) →
      t1.fresh = t.fresh ∧ t1.norecurse = t.norecurse ∧ t1.nopopv = t.nopopv ∧
        t1.stack_size = t.stack_size ∧ vars.length = ds.length ∧
        (t.norecurse = false → t1.sp = spAfter W ds t.sp ∧ vars = slotsFrom W ds t.sp ∧
          fits W t.stack_size ds t.sp = true) ∧
        (t.norecurse = true → t1.sp = t.sp) := by
  induction ds with
  | nil =>
    intro k t vars t1 h
    simp only [construct, Except.ok.injEq, Prod.mk.injEq] at h
    obtain ⟨rfl, rfl⟩ := h
    simp [spAfter, slotsFrom, fits]
  | cons d ds ih =>
    intro k t vars t1 h
    rw [construct] at h
    cases hp : push W t d.bytes with
    | error e => rw [hp] at h; simp at h
    | ok p =>
      obtain ⟨v, t0⟩ := p
      rw [hp] at h
      simp only at h
      have hpush : v = t.sp ∧ t0.fresh = t.fresh ∧ t0.norecurse = t.norecurse ∧
          t0.nopopv = t.nopopv ∧ t0.stack_size = t.stack_size ∧
          (t.norecurse = false → t0.sp = add16 t.sp (varWords W d.bytes) ∧
            add16 t.sp (varWords W d.bytes) < t.stack_size) ∧
          (t.norecurse = true → t0.sp = t.sp) := by
        unfold push advance at hp
        cases hn : t.norecurse
        · by_cases hlt : add16 t.sp (varWords W d.bytes) < t.stack_size
          · simp [hn, hlt, Except.map] at hp
            obtain ⟨rfl, rfl⟩ := hp
            simp [hn, hlt]
          · simp [hn, hlt, Except.map] at hp
        · simp [hn] at hp
          obtain ⟨rfl, rfl⟩ := hp
          simp [hn]
      obtain ⟨hv, p1, p2, p3, p4, p5, p6⟩ := hpush
      have hmid : ∀ (x : Tasklet U), (if t0.fresh then
            { t0 with stack := setSlot t0.stack v d.initWord
                      trace := t0.trace ++ [Event.ctor fn k v] }
          else t0) = x →
            x.fresh = t0.fresh ∧ x.norecurse = t0.norecurse ∧ x.nopopv = t0.nopopv ∧
              x.stack_size = t0.stack_size ∧ x.sp = t0.sp := by
        intro x hx
        subst hx
        cases hf : t0.fresh <;> simp [hf]
      generalize hx : (if t0.fresh then
            { t0 with stack := setSlot t0.stack v d.initWord
                      trace := t0.trace ++ [Event.ctor fn k v] }
          else t0) = x at h
      obtain ⟨m1, m2, m3, m4, m5⟩ := hmid x hx
      cases hc : construct W fn ds (k + 1) x with
      | error e => rw [hc] at h; simp at h
      | ok q =>
        obtain ⟨vs, t3⟩ := q
        rw [hc] at h
        simp only [Except.ok.injEq, Prod.mk.injEq] at h
        obtain ⟨rfl, rfl⟩ := h
        obtain ⟨q1, q2, q3, q4, q5, q6, q7⟩ := ih (k + 1) x vs t3 hc
        refine ⟨by rw [q1, m1, p1], by rw [q2, m2, p2], by rw [q3, m3, p3],
          by rw [q4, m4, p4], by simp [q5], ?_, ?_⟩
        · intro hn
          obtain ⟨h5a, h5b⟩ := p5 hn
          obtain ⟨r1, r2, r3⟩ := q6 (by rw [m2, p2, hn])
          rw [m5, h5a] at r1 r2
          rw [m4, p4, m5, h5a] at r3
          refine ⟨by simp [spAfter, r1], by simp [slotsFrom, r2, hv], ?_⟩
          simp [fits, h5b, r3]
        · intro hn
          rw [q7 (by rw [m2, p2, hn]), m5, p6 hn]

theorem destruct_props {U : Type} (W fn : Nat) (ds : List VarDecl) :
    ∀ (vars : List Nat) (k : Nat) (t : Tasklet U),
      (destruct W fn ds vars k t).fresh = t.fresh ∧
        (destruct W fn ds vars k t).norecurse = t.norecurse ∧
        (destruct W fn ds vars k t).nopopv = t.nopopv ∧
        (destruct W fn ds vars k t).stack_size = t.stack_size ∧
        (destruct W fn ds vars k t).stack = t.stack ∧
        (destruct W fn ds vars k t).ended = t.ended ∧
        (destruct W fn ds vars k t).user = t.user ∧
        (destruct W fn ds vars k t).starters = t.starters ∧
        (t.nopopv = false → vars.length = ds.length →
          (destruct W fn ds vars k t).sp = popAll W ds t.sp) ∧
        (t.nopopv = true → (destruct W fn ds vars k t).sp = t.sp) := by
  induction ds with
  | nil =>
    intro vars k t
    cases vars <;> simp [destruct, popAll]
  | cons d ds ih =>
    intro vars k t
    cases vars with
    | nil => simp [destruct]
    | cons v vs =>
      obtain ⟨q1, q2, q3, q4, q5, q6, q7, q8, q9, q10⟩ := ih vs (k + 1) t
      have hd : ∀ (x : Tasklet U),
          (destroy1 W fn k d v x).fresh = x.fresh ∧
          (destroy1 W fn k d v x).norecurse = x.norecurse ∧
          (destroy1 W fn k d v x).nopopv = x.nopopv ∧
          (destroy1 W fn k d v x).stack_size = x.stack_size ∧
          (destroy1 W fn k d v x).stack = x.stack ∧
          (destroy1 W fn k d v x).ended = x.ended ∧
          (destroy1 W fn k d v x).user = x.user ∧
          (destroy1 W fn k d v x).starters = x.starters ∧
          (x.nopopv = false → (destroy1 W fn k d v x).sp = sub16 x.sp (varWords W d.bytes)) ∧
          (x.nopopv = true → (destroy1 W fn k d v x).sp = x.sp) := by
        intro x
        unfold destroy1
        cases he : x.ended <;> cases hn : x.nopopv <;> simp [he, hn]
      obtain ⟨d1, d2, d3, d4, d5, d6, d7, d8, d9, d10⟩ := hd (destruct W fn ds vs (k + 1) t)
      simp only [destruct]
      refine ⟨by rw [d1, q1], by rw [d2, q2], by rw [d3, q3], by rw [d4, q4], by rw [d5, q5],
        by rw [d6, q6], by rw [d7, q7], by rw [d8, q8], ?_, ?_⟩
      · intro hn hl
        rw [d9 (by rw [q3, hn]), q9 hn (by simpa using hl)]
        rfl
      · intro hn
        rw [d10 (by rw [q3, hn]), q10 hn]

theorem begin_props {U : Type} (prog : Nat → Body U) (fn : Nat) (t t1 : Tasklet U) (e : Entry)
    (h : TASKLET_BEGIN fn t = .ok (e, t1)) :
    t1.fresh = false ∧ t1.sp = t.sp ∧ t1.norecurse = t.norecurse ∧ t1.nopopv = t.nopopv ∧
      t1.stack_size = t.stack_size ∧ t1.stack = t.stack ∧ EntryOK prog fn e t1 := by
  unfold TASKLET_BEGIN at h
  cases hf : t.fresh
  · simp only [hf, Bool.false_eq_true, if_false] at h
    cases hs : t.stack t.sp with
    | val v => rw [hs] at h; simp at h
    | lbl f pc =>
      rw [hs] at h
      by_cases hfn : f = fn
      · simp only [hfn, if_true, Except.ok.injEq, Prod.mk.injEq] at h
        obtain ⟨_, rfl⟩ := h
        simp [EntryOK, hf]
      · simp [hfn] at h
  · simp only [hf, if_true, Except.ok.injEq, Prod.mk.injEq] at h
    obtain ⟨_, rfl⟩ := h
    simp [EntryOK]

/-- A `resume()` made while `_norecurse` is set, with the cursor at the slot that holds
the label of the `TASKLET_WAIT` at `pc` of `fn`: if it returns, it has only executed the
re-entry check of that `TASKLET_WAIT` (and `fn` is `main`). -/
theorem invoke_nested {U : Type} (W : Nat) (prog : Nat → Body U) (fuel fn pc : Nat)
    (t t2 : Tasklet U) (hn : t.norecurse = true) (hf : t.fresh = false)
    (hs : t.stack t.sp = Word.lbl fn pc) (hw : (prog fn).code[pc]? = some Instr.wait)
    (h : invoke W prog (run W prog fuel) 0 t = .ok t2) :
    t2 = { t with ended := false, nopopv := true, norecurse := false } := by
  by_cases hfn : fn = 0
  · subst hfn
    cases fuel with
    | zero =>
      have he : enter W prog 0 t =
          .ok (List.replicate (prog 0).vars.length t.sp, Entry.alpha pc,
            { t with ended := false }) := by
        simp [enter, construct_norecurse W 0 _ 0 t hn hf, TASKLET_BEGIN, hf, hs]
      rw [invoke_enter he] at h
      simp [run, Except.map] at h
    | succ fuel =>
      rw [invoke_reentrant W prog fuel pc t hn hf hs hw] at h
      simp only [Except.ok.injEq] at h
      exact h.symm
  · have he : enter W prog 0 t = .error Err.badJump := by
      have hne : ¬ (fn = 0) := hfn
      simp [enter, construct_norecurse W 0 _ 0 t hn hf, TASKLET_BEGIN, hf, hs, hne]
    simp [invoke, he] at h

theorem invoke_frame_of {U : Type} (W : Nat) (prog : Nat → Body U)
    (r : Nat → List Nat → Entry → Tasklet U → Except Err (Tasklet U))
    (hr : ∀ (fn : Nat) (vars : List Nat) (e : Entry) (t t' : Tasklet U),
      r fn vars e t = .ok t' → EntryOK prog fn e t →
      t'.fresh = false ∧ t'.stack_size = t.stack_size ∧ (Quiet t → t'.sp = t.sp ∧ Quiet t')) :
    ∀ (fn : Nat) (t t' : Tasklet U), invoke W prog r fn t = .ok t' →
      t'.fresh = false ∧ t'.stack_size = t.stack_size ∧ (Quiet t → t'.sp = t.sp ∧ Quiet t') := by
  intro fn t t' h
  unfold invoke at h
  cases he : enter W prog fn t with
  | error e => rw [he] at h; simp at h
  | ok p =>
    obtain ⟨vars, e, t1⟩ := p
    rw [he] at h
    simp only at h
    unfold enter at he
    cases hc : construct W fn (prog fn).vars 0 t with
    | error e => rw [hc] at he; simp at he
    | ok q =>
      obtain ⟨vs, tc⟩ := q
      rw [hc] at he
      simp only at he
      cases hb : TASKLET_BEGIN fn tc with
      | error e => rw [hb] at he; simp at he
      | ok b =>
        obtain ⟨e0, tb⟩ := b
        rw [hb] at he
        simp only [Except.ok.injEq, Prod.mk.injEq] at he
        obtain ⟨rfl, rfl, rfl⟩ := he
        obtain ⟨c1, c2, c3, c4, c5, c6, c7⟩ := construct_props W fn _ 0 t vs tc hc
        obtain ⟨b1, b2, b3, b4, b5, b6, b7⟩ := begin_props prog fn tc tb e0 hb
        cases hrun : r fn vs e0 tb with
        | error e => rw [hrun] at h; simp at h
        | ok t2 =>
          rw [hrun] at h
          simp only [Except.ok.injEq] at h
          subst h
          obtain ⟨r1, r2, r3⟩ := hr fn vs e0 tb t2 hrun b7
          obtain ⟨d1, d2, d3, d4, d5, d6, d7, d8, d9, d10⟩ :=
            destruct_props W fn (prog fn).vars vs 0 t2
          refine ⟨by rw [d1, r1], by rw [d4, r2, b5, c4], ?_⟩
          intro hq
          obtain ⟨hq1, hq2, hq3⟩ := hq
          obtain ⟨s1, _, _⟩ := c6 hq1
          have hqb : Quiet tb := by
            refine ⟨by rw [b3, c2, hq1], by rw [b4, c3, hq2], ?_⟩
            rw [b2, s1]
            exact spAfter_lt W _ _ hq3
          obtain ⟨r4, r5, r6, r7⟩ := r3 hqb
          have hsp : (destruct W fn (prog fn).vars vs 0 t2).sp = t.sp := by
            rw [d9 r6 c5, r4, b2, s1]
            exact popAll_spAfter W _ _ hq3
          exact ⟨hsp, by rw [d2, r5], by rw [d3, r6], by rw [hsp]; exact hq3⟩

/-- What the execution of a body leaves, if it returns: `_fresh` is clear and the
capacity is unchanged; from a state with the transient flags clear, the cursor is the one
the body was entered with and the transient flags are clear again. -/
theorem run_frame {U : Type} (W : Nat) (prog : Nat → Body U) :
    ∀ (fuel fn : Nat) (vars : List Nat) (e : Entry) (t t' : Tasklet U),
      run W prog fuel fn vars e t = .ok t' → EntryOK prog fn e t →
      t'.fresh = false ∧ t'.stack_size = t.stack_size ∧ (Quiet t → t'.sp = t.sp ∧ Quiet t') := by
  intro fuel
  induction fuel with
  | zero => intro fn vars e t t' h _; simp [run] at h
  | succ fuel ih =>
    intro fn vars e t t' h hok
    have hinv := invoke_frame_of W prog (run W prog fuel) ih
    cases e with
    | «at» pc =>
      have hf : t.fresh = false := by
        rcases hok with hf | ⟨pc', g, he, _⟩
        · exact hf
        · cases he
      rw [run] at h
      cases hi : (prog fn).code[pc]? with
      | none =>
        rw [hi] at h
        simp only [Except.ok.injEq] at h
        subst h
        exact ⟨hf, rfl, fun hq => ⟨rfl, hq⟩⟩
      | some i =>
        rw [hi] at h
        cases i with
        | act f =>
          simp only at h
          have := ih _ _ _ _ _ h (Or.inl hf)
          exact this
        | br c target =>
          simp only at h
          have := ih _ _ _ _ _ h (Or.inl hf)
          exact this
        | yield =>
          simp only [Except.ok.injEq] at h
          subst h
          exact ⟨hf, rfl, fun hq => ⟨rfl, hq⟩⟩
        | tend =>
          simp only at h
          have := ih _ _ _ _ _ h (Or.inl rfl)
          exact this
        | call g =>
          simp only at h
          have := ih _ _ _ _ _ h (Or.inr ⟨pc, g, rfl, hi⟩)
          exact this
        | wait =>
          simp only at h
          cases hst : t.starters with
          | nil =>
            simp only [waitStore, hst, if_true, Except.ok.injEq] at h
            subst h
            exact ⟨hf, rfl, fun hq => ⟨rfl, rfl, hq.2.1, hq.2.2⟩⟩
          | cons b rest =>
            cases b with
            | false =>
              simp only [waitStore, hst, if_true, Except.ok.injEq] at h
              subst h
              exact ⟨hf, rfl, fun hq => ⟨rfl, rfl, hq.2.1, hq.2.2⟩⟩
            | true =>
              simp only [waitStore, hst] at h
              cases hnest : invoke W prog (run W prog fuel) 0
                  { t with stack := setSlot t.stack t.sp (Word.lbl fn pc), norecurse := true
                           starters := rest } with
              | error e => rw [hnest] at h; simp at h
              | ok t2 =>
                rw [hnest] at h
                have h2 := invoke_nested W prog fuel fn pc
                  { t with stack := setSlot t.stack t.sp (Word.lbl fn pc), norecurse := true
                           starters := rest } t2 rfl hf (by simp [setSlot]) hi hnest
                subst h2
                simp only [Bool.false_eq_true, if_false] at h
                have := ih _ _ _ _ _ h (Or.inl hf)
                obtain ⟨r1, r2, r3⟩ := this
                refine ⟨r1, r2, ?_⟩
                intro hq
                exact r3 ⟨rfl, rfl, hq.2.2⟩
    | alpha pc =>
      rw [run] at h
      cases hi : (prog fn).code[pc]? with
      | none => rw [hi] at h; simp at h
      | some i =>
        rw [hi] at h
        cases i with
        | act f => simp at h
        | br c target => simp at h
        | tend => simp at h
        | yield =>
          have hf : t.fresh = false := by
            rcases hok with hf | ⟨pc', g, he, hc⟩
            · exact hf
            · cases he
              rw [hi] at hc
              cases hc
          simp only at h
          exact ih _ _ _ _ _ h (Or.inl hf)
        | wait =>
          have hf : t.fresh = false := by
            rcases hok with hf | ⟨pc', g, he, hc⟩
            · exact hf
            · cases he
              rw [hi] at hc
              cases hc
          simp only at h
          cases hn : t.norecurse
          · simp only [hn, Bool.false_eq_true, if_false] at h
            exact ih _ _ _ _ _ h (Or.inl hf)
          · simp only [hn, if_true, Except.ok.injEq] at h
            subst h
            refine ⟨hf, rfl, ?_⟩
            intro hq
            rw [hq.1] at hn
            cases hn
        | call g =>
          simp only at h
          cases hce : callEnter t with
          | error e => rw [hce] at h; simp at h
          | ok t1 =>
            rw [hce] at h
            simp only at h
            have hce2 : t1 = { t with sp := add16 t.sp 1, ended := true } := by
              unfold callEnter advance at hce
              by_cases hlt : add16 t.sp 1 < t.stack_size
              · simp [hlt] at hce
                exact hce.symm
              · simp [hlt] at hce
            subst hce2
            cases hcal : invoke W prog (run W prog fuel) g
                { t with sp := add16 t.sp 1, ended := true } with
            | error e => rw [hcal] at h; simp at h
            | ok t2 =>
              rw [hcal] at h
              simp only at h
              obtain ⟨i1, i2, i3⟩ := hinv g _ t2 hcal
              have x1 : (callExit t2).fresh = false := rfl
              have x2 : (callExit t2).stack_size = t.stack_size := by
                simpa [callExit] using i2
              have x3 : Quiet t → (callExit t2).sp = t.sp ∧ Quiet (callExit t2) := by
                intro hq
                have hlt : add16 t.sp 1 < 65536 := by unfold add16; omega
                obtain ⟨j1, j2, j3, j4⟩ := i3 ⟨hq.1, hq.2.1, hlt⟩
                have hsp : (callExit t2).sp = t.sp := by
                  simp only [callExit]
                  rw [j1]
                  exact sub16_add16 t.sp 1 hq.2.2
                have hQ : Quiet (callExit t2) := by
                  unfold Quiet
                  simp only [callExit]
                  refine ⟨j2, j3, ?_⟩
                  unfold sub16
                  omega
                exact ⟨hsp, hQ⟩
              cases hen : (callExit t2).ended
              · simp only [hen, Bool.not_false, if_true, Except.ok.injEq] at h
                subst h
                exact ⟨x1, x2, x3⟩
              · simp only [hen, Bool.not_true, Bool.false_eq_true, if_false] at h
                obtain ⟨r1, r2, r3⟩ := ih _ _ _ _ _ h (Or.inl x1)
                refine ⟨r1, by rw [r2, x2], ?_⟩
                intro hq
                obtain ⟨y1, y2⟩ := x3 hq
                obtain ⟨z1, z2⟩ := r3 y2
                exact ⟨by rw [z1, y1], z2⟩

/-- What an invocation of `main` leaves, if it returns. -/
theorem main_frame {U : Type} (W : Nat) (prog : Nat → Body U) (fuel : Nat) (t t' : Tasklet U)
    (h : Tasklet.main W prog fuel t = .ok t') :
    t'.fresh = false ∧ t'.stack_size = t.stack_size ∧ (Quiet t → t'.sp = t.sp ∧ Quiet t') :=
  invoke_frame_of W prog (run W prog fuel) (run_frame W prog fuel) 0 t t' h

/-! ### The flags at the returns of an invocation -/

theorem resumes_frame {U : Type} (W : Nat) (prog : Nat → Body U) (fuel : Nat) :
    ∀ (n : Nat) (t t' : Tasklet U), Quiet t → t.fresh = false →
      resumes W prog fuel n t = .ok t' → t'.sp = t.sp ∧ t'.fresh = false ∧ Quiet t' := by
  intro n
  induction n with
  | zero =>
    intro t t' hq hf h
    simp only [resumes, Except.ok.injEq] at h
    subst h
    exact ⟨rfl, hf, hq⟩
  | succ n ih =>
    intro t t' hq hf h
    rw [resumes] at h
    cases hr : Tasklet.resume W prog fuel t with
    | error e => rw [hr] at h; simp at h
    | ok t1 =>
      rw [hr] at h
      simp only at h
      obtain ⟨f1, _, f3⟩ := main_frame W prog fuel t t1 hr
      obtain ⟨s1, q1⟩ := f3 hq
      obtain ⟨a, b, c⟩ := ih t1 t' q1 f1 h
      exact ⟨by rw [a, s1], b, c⟩

/-- C18. For every program and every tasklet constructed over it: each time `start()` or
a later `resume()` returns to the external caller, the cursor is `0`, as at construction,
`_fresh` is clear, and `_norecurse` and `_nopopv` are clear.  (A run in which an assertion
fails, or in which a `TASKLET_WAIT` of a callee completes synchronously, does not
return.) -/
theorem cursor_and_flags_at_return {U : Type} (W : Nat) (prog : Nat → Body U) (fuel n : Nat)
    (mem : Nat → Word) (bytes : Nat) (e : Bool) (u : U) (st : List Bool) (t' : Tasklet U)
    (h : startResumes W prog fuel n (Tasklet.create W mem bytes e u st) = .ok t') :
    t'.sp = 0 ∧ t'.fresh = false ∧ t'.norecurse = false ∧ t'.nopopv = false := by
  unfold startResumes at h
  cases hs : Tasklet.start W prog fuel (Tasklet.create W mem bytes e u st) with
  | error e => rw [hs] at h; simp at h
  | ok t1 =>
    rw [hs] at h
    simp only at h
    have hq0 : Quiet (Tasklet.create W mem bytes e u st) := by
      unfold Quiet Tasklet.create
      simp
    obtain ⟨f1, _, f3⟩ := main_frame W prog fuel _ t1 hs
    obtain ⟨s1, q1⟩ := f3 hq0
    obtain ⟨a, b, c⟩ := resumes_frame W prog fuel n t1 t' q1 f1 h
    exact ⟨by rw [a, s1]; rfl, b, c.1, c.2.1⟩

/-- C18, for the `SimpleTasklet` of the tests after `start()`. -/
theorem cursor_and_flags_at_return_witness :
    ∃ t', startResumes 8 SimpleTasklet 20 0 (Tasklet.create 8 (fun _ => Word.val 0) (16 * 8)
        true (0 : Int) []) = .ok t' ∧
      (t'.sp = 0 ∧ t'.fresh = false ∧ t'.norecurse = false ∧ t'.nopopv = false) := by
  obtain ⟨t', h, _⟩ := simple_start 19 (fun _ => Word.val 0) true
  exact ⟨t', startResumes_zero_of h,
    cursor_and_flags_at_return 8 SimpleTasklet 20 0 _ _ _ _ _ t' (startResumes_zero_of h)⟩

/-- C13, as stated, fails: in the state in which `TASKLET_CALL` calls the callee - its
lines 236 to 241 executed in `main` right after the first `TASKLET_BEGIN` - both `_ended`
and `_fresh` are set. -/
theorem ended_and_fresh_inside_call :
    endedAndFresh (callEnter (callStore 0 0 (Tasklet.atCursor 16 0))) = some (true, true) := by
  decide

/-- C13 (amended). Whenever an invocation of a body - of `main`, by `start()` or
`resume()`, or of a callee, by `TASKLET_CALL` - returns, `_fresh` is clear, so `_ended`
and `_fresh` are not both set.  (Inside `TASKLET_CALL`, from `_ended = true` to the
`TASKLET_BEGIN` of the callee on its first entry, both are set.) -/
theorem not_ended_and_fresh_at_return {U : Type} (W : Nat) (prog : Nat → Body U)
    (fuel fn : Nat) (t t' : Tasklet U)
    (h : invoke W prog (run W prog fuel) fn t = .ok t') :
    t'.fresh = false ∧ ¬ (t'.ended = true ∧ t'.fresh = true) := by
  have hf := (invoke_frame_of W prog (run W prog fuel) (run_frame W prog fuel) fn t t' h).1
  exact ⟨hf, fun hc => by rw [hf] at hc; exact Bool.noConfusion hc.2⟩

/-- C13 (amended), for the `SimpleTasklet` of the tests at the return of `start()`. -/
theorem not_ended_and_fresh_at_return_witness :
    ∃ t', invoke 8 SimpleTasklet (run 8 SimpleTasklet 20) 0
        (Tasklet.create 8 (fun _ => Word.val 0) (16 * 8) true (0 : Int) []) = .ok t' ∧
      (t'.fresh = false ∧ ¬ (t'.ended = true ∧ t'.fresh = true)) := by
  obtain ⟨t', h, _⟩ := simple_start 19 (fun _ => Word.val 0) true
  unfold Tasklet.start Tasklet.main SimpleTasklet.t0 at h
  exact ⟨t', h, not_ended_and_fresh_at_return 8 SimpleTasklet 20 0 _ t' h⟩

/-! ### The re-entrant `resume()` of a `TASKLET_WAIT` -/

/-- C19. A `resume()` made by the starter of the `TASKLET_WAIT` at `pc` of `main`
(`_norecurse` set, the label stored at the cursor, `_fresh` clear) returns having changed
only three flags: `_ended` and `_norecurse` are clear and `_nopopv` is set; the cursor,
`_fresh`, the scratch stack, the members and the log of executed statements are as they
were.  The original invocation then goes on with the instruction after the
`TASKLET_WAIT`, in the same invocation, with `_nopopv` clear again. -/
theorem reentrant_resume_only_checks {U : Type} (W : Nat) (prog : Nat → Body U)
    (fuel pc : Nat) (vars : List Nat) (t : Tasklet U) (rest : List Bool)
    (hw : (prog 0).code[pc]? = some Instr.wait) (hf : t.fresh = false)
    (hst : t.starters = true :: rest) :
    invoke W prog (run W prog (fuel + 1)) 0 { waitStore 0 pc t with starters := rest } =
        .ok { waitStore 0 pc t with starters := rest, ended := false, nopopv := true
                                    norecurse := false } ∧
      run W prog (fuel + 2) 0 vars (.at pc) t =
        run W prog fuel 0 vars (.at (pc + 1))
          { t with stack := setSlot t.stack t.sp (.lbl 0 pc), starters := rest, ended := false
                   nopopv := false, norecurse := false } := by
  constructor
  · exact invoke_reentrant W prog fuel pc { waitStore 0 pc t with starters := rest } rfl hf
      (by simp [waitStore, setSlot]) hw
  · exact run_wait_sync W prog fuel pc vars t rest hw hf hst

/-- C19, at the first `TASKLET_WAIT` of `WaitTasklet`. -/
theorem reentrant_resume_only_checks_witness :
    invoke 8 WaitTasklet (run 8 WaitTasklet (30 + 1)) 0
        { waitStore 0 3 { WaitTasklet.atWait with starters := [true] } with starters := [] } =
        .ok { waitStore 0 3 { WaitTasklet.atWait with starters := [true] } with
                starters := [], ended := false, nopopv := true, norecurse := false } ∧
      run 8 WaitTasklet (30 + 2) 0 [0] (.at 3) { WaitTasklet.atWait with starters := [true] } =
        run 8 WaitTasklet 30 0 [0] (.at (3 + 1))
          { WaitTasklet.atWait with
              stack := setSlot WaitTasklet.atWait.stack WaitTasklet.atWait.sp (.lbl 0 3)
              starters := [], ended := false, nopopv := false, norecurse := false } :=
  reentrant_resume_only_checks 8 WaitTasklet 30 3 [0]
    { WaitTasklet.atWait with starters := [true] } [] rfl rfl rfl

/-- C15, as stated, fails: `main` is `TASKLET_WAIT(...); s; TASKLET_END()` with a starter
that resumes synchronously.  The nested `resume()` returns to the starter with an empty
log, the tasklet still running: it has not executed `s`.  The original invocation, when
the starter has returned, executes `s` and `TASKLET_END` itself. -/
theorem nested_resume_skips_continuation :
    observeLog (invoke 8 waitThenStmt (run 8 waitThenStmt 10) 0
        (waitStore 0 0 (Tasklet.atCursor 16 0))) = some (true, []) ∧
      observeLog (run 8 waitThenStmt 10 0 [] (.at 0)
        { Tasklet.atCursor 16 0 with starters := [true] }) =
        some (false, [Event.exec 0 1, Event.tend 0]) := by
  decide!

/-- C15 (amended). When the starter of the `TASKLET_WAIT` at `pc` of `main` calls
`resume()` before it returns, that nested `resume()` returns to the starter without
having executed a statement (log and members unchanged), without having moved the cursor
and with the tasklet running; the original invocation, once the starter has returned,
does not suspend at this `TASKLET_WAIT`: it goes on with the continuation itself, from a
state with the same cursor, log and members. -/
theorem sync_wait_continues_in_original {U : Type} (W : Nat) (prog : Nat → Body U)
    (fuel pc : Nat) (vars : List Nat) (t : Tasklet U) (rest : List Bool)
    (hw : (prog 0).code[pc]? = some Instr.wait) (hf : t.fresh = false)
    (hst : t.starters = true :: rest) :
    (∃ t2, invoke W prog (run W prog (fuel + 1)) 0 { waitStore 0 pc t with starters := rest } =
        .ok t2 ∧ t2.trace = t.trace ∧ t2.user = t.user ∧ t2.sp = t.sp ∧
        t2.is_running = true) ∧
      ∃ t3, run W prog (fuel + 2) 0 vars (.at pc) t = run W prog fuel 0 vars (.at (pc + 1)) t3 ∧
        t3.sp = t.sp ∧ t3.trace = t.trace ∧ t3.user = t.user ∧ t3.norecurse = false ∧
        t3.nopopv = false := by
  constructor
  · exact ⟨_, invoke_reentrant W prog fuel pc { waitStore 0 pc t with starters := rest } rfl hf
      (by simp [waitStore, setSlot]) hw, rfl, rfl, rfl, rfl⟩
  · exact ⟨_, run_wait_sync W prog fuel pc vars t rest hw hf hst, rfl, rfl, rfl, rfl, rfl⟩

/-- C15 (amended), at the first `TASKLET_WAIT` of `WaitTasklet`. -/
theorem sync_wait_continues_in_original_witness :
    ∃ t3, run 8 WaitTasklet (30 + 2) 0 [0] (.at 3)
        { WaitTasklet.atWait with starters := [true] } =
        run 8 WaitTasklet 30 0 [0] (.at (3 + 1)) t3 ∧
      t3.sp = 1 ∧ t3.trace = WaitTasklet.atWait.trace ∧ t3.user = (0, []) ∧
      t3.norecurse = false ∧ t3.nopopv = false :=
  (sync_wait_continues_in_original 8 WaitTasklet 30 3 [0]
    { WaitTasklet.atWait with starters := [true] } [] rfl rfl rfl).2

/-! ### `TASKLET_CALL` and a callee that has not ended -/

/-- C14, at the failing input: `main` is `TASKLET_CALL(f); TASKLET_END()`, and `f`
suspends at a `TASKLET_YIELD` that follows its own completed `TASKLET_CALL(g)`.  In
`start()` the callee `f` does not reach its `TASKLET_END` (the log holds the
`TASKLET_END` of `g` and of `main` only), and yet `main` continues past the
`TASKLET_CALL` and `is_running()` is false. -/
theorem call_falls_through_on_stale_ended :
    observeLog (Tasklet.start 8 calleeSuspendsAfterCall 20
      (Tasklet.create 8 (fun _ => Word.val 0) 128 false () [])) =
      some (false, [Event.tend 2, Event.tend 0]) := by
  decide!

/-! ### Suspension and the next `resume()` -/

theorem resumePoint_ok {U α : Type} (W : Nat) (ov : Bool) (ds : List VarDecl) (vars : List Nat)
    (t : Tasklet U) (k : Except Fault α) (h1 : t.sp < t.stack_size)
    (h2 : ov = true → t.norecurse = false → overlaps W ds vars t.sp = false) :
    resumePoint W ov ds vars t k = k := by
  unfold resumePoint
  rw [if_pos h1]
  cases ov
  · simp
  · cases hn : t.norecurse
    · simp [h2 rfl hn]
    · simp

theorem spAfter_fits (W size : Nat) (ds : List VarDecl) :
    ∀ c : Nat, c < size → fits W size ds c = true → spAfter W ds c < size := by
  induction ds with
  | nil => intro c hc _; simpa [spAfter] using hc
  | cons d ds ih =>
    intro c _ hf
    simp only [fits, Bool.and_eq_true, decide_eq_true_eq] at hf
    simp only [spAfter]
    exact ih _ hf.1 hf.2

theorem slots_clear (W : Nat) (ds : List VarDecl) :
    ∀ c : Nat, c + totalWords W ds < 65536 →
      spAfter W ds c = c + totalWords W ds ∧
      ∀ i : Nat, c + totalWords W ds ≤ i → overlaps W ds (slotsFrom W ds c) i = false := by
  induction ds with
  | nil => intro c _; simp [spAfter, totalWords, overlaps, slotsFrom]
  | cons d ds ih =>
    intro c hc
    simp only [totalWords] at hc
    have ha : add16 c (varWords W d.bytes) = c + varWords W d.bytes := by
      unfold add16
      exact Nat.mod_eq_of_lt (by omega)
    obtain ⟨h1, h2⟩ := ih (c + varWords W d.bytes) (by omega)
    simp only [spAfter, slotsFrom, totalWords, overlaps, ha]
    refine ⟨by rw [h1]; omega, ?_⟩
    intro i hi
    rw [h2 i (by omega)]
    simp
    omega

theorem invokeChecked_nested {U : Type} (W : Nat) (prog : Nat → Body U) (ov : Bool)
    (fuel fn pc : Nat) (t : Tasklet U) (hn : t.norecurse = true) (hf : t.fresh = false)
    (hs : t.stack t.sp = Word.lbl fn pc) (hw : (prog fn).code[pc]? = some Instr.wait)
    (hlt : t.sp < t.stack_size) :
    invokeChecked W prog ov (runChecked W prog ov fuel) 0 t =
      faultOf (invoke W prog (run W prog fuel) 0 t) := by
  have hc := construct_norecurse W 0 (prog 0).vars 0 t hn hf
  have hrp : ∀ k : Except Fault (Entry × Tasklet U),
      resumePoint W ov (prog 0).vars (List.replicate (prog 0).vars.length t.sp) t k = k :=
    fun k => resumePoint_ok W ov _ _ t k hlt (fun _ h => by rw [hn] at h; cases h)
  unfold invokeChecked invoke enter beginChecked
  rw [hc]
  simp only [hf, Bool.false_eq_true, if_false, hrp]
  by_cases hfn : fn = 0
  · subst hfn
    have hb : TASKLET_BEGIN 0 t = .ok (Entry.alpha pc, { t with ended := false }) := by
      simp [TASKLET_BEGIN, hf, hs]
    rw [hb]
    simp only [faultOf]
    cases fuel with
    | zero => simp [runChecked, run]
    | succ fuel =>
      rw [runChecked, run, hw]
      simp [hn]
  · have hb : TASKLET_BEGIN 0 t = .error Err.badJump := by
      have hne : ¬ (fn = 0) := hfn
      simp [TASKLET_BEGIN, hf, hs, hne]
    rw [hb]
    simp [faultOf]

theorem invokeChecked_eq_of {U : Type} (W : Nat) (prog : Nat → Body U) (ov : Bool) (cap : Nat)
    (hw : ov = true → ∀ g, cap + totalWords W (prog g).vars ≤ 65536)
    (r : Nat → List Nat → Entry → Tasklet U → Except Err (Tasklet U))
    (rC : Nat → List Nat → Entry → Tasklet U → Except Fault (Tasklet U))
    (hr : ∀ (fn : Nat) (vars : List Nat) (e : Entry) (t : Tasklet U),
      Quiet t → t.sp < cap → t.stack_size = cap → EntryOK prog fn e t →
      (ov = true → overlaps W (prog fn).vars vars t.sp = false) →
      rC fn vars e t = faultOf (r fn vars e t)) :
    ∀ (fn : Nat) (t : Tasklet U), Quiet t → t.sp < cap → t.stack_size = cap →
      invokeChecked W prog ov rC fn t = faultOf (invoke W prog r fn t) := by
  intro fn t hq hsp hcap
  unfold invokeChecked invoke enter
  cases hc : construct W fn (prog fn).vars 0 t with
  | error e => simp [faultOf]
  | ok q =>
    obtain ⟨vs, tc⟩ := q
    simp only
    obtain ⟨c1, c2, c3, c4, c5, c6, c7⟩ := construct_props W fn _ 0 t vs tc hc
    obtain ⟨s1, s2, s3⟩ := c6 hq.1
    have hlt : tc.sp < cap := by
      rw [s1]
      exact spAfter_fits W cap _ _ hsp (by rw [← hcap]; exact s3)
    have hov : ov = true → overlaps W (prog fn).vars vs tc.sp = false := by
      intro h
      have h1 := hw h fn
      obtain ⟨k1, k2⟩ := slots_clear W (prog fn).vars t.sp (by omega)
      rw [s1, s2, k1]
      exact k2 _ (le_refl _)
    have hbc : beginChecked W ov (prog fn).vars vs fn tc = faultOf (TASKLET_BEGIN fn tc) := by
      unfold beginChecked
      cases hf : tc.fresh
      · simp only [Bool.false_eq_true, if_false]
        exact resumePoint_ok W ov _ _ tc _ (by rw [c4, hcap]; exact hlt) (fun h _ => hov h)
      · simp
    rw [hbc]
    cases hb : TASKLET_BEGIN fn tc with
    | error e => simp [faultOf]
    | ok b =>
      obtain ⟨e0, tb⟩ := b
      simp only [faultOf]
      obtain ⟨b1, b2, b3, b4, b5, b6, b7⟩ := begin_props prog fn tc tb e0 hb
      have hqb : Quiet tb := by
        refine ⟨by rw [b3, c2, hq.1], by rw [b4, c3, hq.2.1], ?_⟩
        rw [b2, s1]
        exact spAfter_lt W _ _ hq.2.2
      rw [hr fn vs e0 tb hqb (by rw [b2]; exact hlt) (by rw [b5, c4, hcap]) b7
        (by rw [b2]; exact hov)]
      cases r fn vs e0 tb <;> simp [faultOf]

/-- From a state with the transient flags clear and the cursor below the capacity, no
access to the resume point made by the body fails the checks, however far the body runs:
the checked semantics and the unchecked one give the same outcome for every fuel. -/
theorem runChecked_eq {U : Type} (W : Nat) (prog : Nat → Body U) (ov : Bool) (cap : Nat)
    (hw : ov = true → ∀ g, cap + totalWords W (prog g).vars ≤ 65536) :
    ∀ (fuel fn : Nat) (vars : List Nat) (e : Entry) (t : Tasklet U),
      Quiet t → t.sp < cap → t.stack_size = cap → EntryOK prog fn e t →
      (ov = true → overlaps W (prog fn).vars vars t.sp = false) →
      runChecked W prog ov fuel fn vars e t = faultOf (run W prog fuel fn vars e t) := by
  intro fuel
  induction fuel with
  | zero => intro fn vars e t _ _ _ _ _; simp [runChecked, run, faultOf]
  | succ fuel ih =>
    intro fn vars e t hq hsp hcap hok hov
    have hinv := invokeChecked_eq_of W prog ov cap hw (run W prog fuel)
      (runChecked W prog ov fuel) (ih)
    have hrp : ∀ k : Except Fault (Tasklet U),
        resumePoint W ov (prog fn).vars vars t k = k :=
      fun k => resumePoint_ok W ov _ _ t k (by rw [hcap]; exact hsp) (fun h _ => hov h)
    cases e with
    | «at» pc =>
      have hf : t.fresh = false := by
        rcases hok with hf | ⟨pc', g, he, _⟩
        · exact hf
        · cases he
      rw [runChecked, run]
      cases hi : (prog fn).code[pc]? with
      | none => simp [faultOf]
      | some i =>
        cases i with
        | act f =>
          simp only
          exact ih _ _ _ _ hq hsp hcap (Or.inl hf) hov
        | br c target =>
          simp only
          exact ih _ _ _ _ hq hsp hcap (Or.inl hf) hov
        | yield =>
          simp only [hrp, faultOf]
        | tend =>
          simp only
          exact ih _ _ _ _ hq hsp hcap (Or.inl rfl) hov
        | call g =>
          simp only [hrp]
          exact ih _ _ _ _ hq hsp hcap (Or.inr ⟨pc, g, rfl, hi⟩) hov
        | wait =>
          simp only [hrp]
          cases hst : t.starters with
          | nil => simp [waitStore, hst, faultOf]
          | cons b rest =>
            cases b with
            | false => simp [waitStore, hst, faultOf]
            | true =>
              simp only [waitStore, hst]
              rw [invokeChecked_nested W prog ov fuel fn pc
                { t with stack := setSlot t.stack t.sp (Word.lbl fn pc), norecurse := true
                         starters := rest } rfl hf (by simp [setSlot]) hi
                (by rw [hcap]; exact hsp)]
              cases hnest : invoke W prog (run W prog fuel) 0
                  { t with stack := setSlot t.stack t.sp (Word.lbl fn pc), norecurse := true
                           starters := rest } with
              | error e => simp [faultOf]
              | ok t2 =>
                have h2 := invoke_nested W prog fuel fn pc
                  { t with stack := setSlot t.stack t.sp (Word.lbl fn pc), norecurse := true
                           starters := rest } t2 rfl hf (by simp [setSlot]) hi hnest
                subst h2
                simp only [faultOf, Bool.false_eq_true, if_false]
                exact ih _ _ _ _ ⟨rfl, rfl, hq.2.2⟩ hsp hcap (Or.inl hf) hov
    | alpha pc =>
      rw [runChecked, run]
      cases hi : (prog fn).code[pc]? with
      | none => simp [faultOf]
      | some i =>
        cases i with
        | act f => simp [faultOf]
        | br c target => simp [faultOf]
        | tend => simp [faultOf]
        | yield =>
          have hf : t.fresh = false := by
            rcases hok with hf | ⟨pc', g, he, hc⟩
            · exact hf
            · cases he
              rw [hi] at hc
              cases hc
          simp only
          exact ih _ _ _ _ hq hsp hcap (Or.inl hf) hov
        | wait =>
          have hf : t.fresh = false := by
            rcases hok with hf | ⟨pc', g, he, hc⟩
            · exact hf
            · cases he
              rw [hi] at hc
              cases hc
          simp only [hq.1, Bool.false_eq_true, if_false]
          exact ih _ _ _ _ hq hsp hcap (Or.inl hf) hov
        | call g =>
          simp only
          cases hce : callEnter t with
          | error e => simp [faultOf]
          | ok t1 =>
            simp only
            have hce2 : t1 = { t with sp := add16 t.sp 1, ended := true } ∧
                add16 t.sp 1 < t.stack_size := by
              unfold callEnter advance at hce
              by_cases hlt : add16 t.sp 1 < t.stack_size
              · simp [hlt] at hce
                exact ⟨hce.symm, hlt⟩
              · simp [hlt] at hce
            obtain ⟨hce3, hlt⟩ := hce2
            subst hce3
            have hlt16 : add16 t.sp 1 < 65536 := by unfold add16; omega
            have hq1 : Quiet ({ t with sp := add16 t.sp 1, ended := true } : Tasklet U) :=
              ⟨hq.1, hq.2.1, hlt16⟩
            rw [hinv g { t with sp := add16 t.sp 1, ended := true } hq1
              (by rw [← hcap]; exact hlt) hcap]
            cases hcal : invoke W prog (run W prog fuel) g
                { t with sp := add16 t.sp 1, ended := true } with
            | error e => simp [faultOf]
            | ok t2 =>
              simp only [faultOf]
              obtain ⟨i1, i2, i3⟩ := invoke_frame_of W prog (run W prog fuel)
                (run_frame W prog fuel) g _ t2 hcal
              obtain ⟨j1, j2, j3, j4⟩ := i3 hq1
              have x1 : (callExit t2).fresh = false := rfl
              have x2 : (callExit t2).stack_size = cap := by
                rw [← hcap]
                simpa [callExit] using i2
              have hsp2 : (callExit t2).sp = t.sp := by
                simp only [callExit]
                rw [j1]
                exact sub16_add16 t.sp 1 hq.2.2
              have hQ : Quiet (callExit t2) := by
                unfold Quiet
                simp only [callExit]
                refine ⟨j2, j3, ?_⟩
                unfold sub16
                omega
              cases hen : (callExit t2).ended
              · simp
              · simp only [Bool.not_true, Bool.false_eq_true, if_false]
                exact ih _ _ _ _ hQ (by rw [hsp2]; exact hsp) x2 (Or.inl x1)
                  (by rw [hsp2]; exact hov)
/-- C20, counterexample.  In the re-entrant `resume()` of the `TASKLET_WAIT` of
`WaitTasklet::main` (cursor 1, the resume point stored in slot 1) the proxy constructor
of `i` hands out slot 1, the resume slot that `TASKLET_BEGIN` then reads and jumps
through; and for a local of `2^16` words the 16-bit cursor wraps, no assertion fires, the
proxy is handed slot 0 and `TASKLET_YIELD` stores the resume point in slot 0. -/
theorem resume_slot_handed_to_proxy :
    (waitStore 0 3 WaitTasklet.atWait).stack 1 = Word.lbl 0 3 ∧
      entryOf (enter 8 WaitTasklet 0 (waitStore 0 3 WaitTasklet.atWait)) =
        some ([1], Entry.alpha 3, 1) ∧
      overlaps 8 (WaitTasklet 0).vars [1] 1 = true ∧
      entryOf (enter 8 bigLocal 0 (Tasklet.create 8 (fun _ => Word.val 0) 128 false () [])) =
        some ([0], Entry.at 0, 0) ∧
      faultIn (mainChecked 8 bigLocal true 3
        (Tasklet.create 8 (fun _ => Word.val 0) 128 false () [])) = some Fault.overlap ∧
      faultIn (mainChecked 8 bigLocal false 3
        (Tasklet.create 8 (fun _ => Word.val 0) 128 false () [])) = none := by
  decide!

/-- C20 (amended).  Let `start()` or `resume()` be called on a tasklet with the transient
flags clear and the cursor below the capacity (after construction: capacity at least 1).
Then, however far the invocation runs and whether or not it aborts later, every read or
write of a resume point - the stores of `TASKLET_YIELD`, `TASKLET_CALL` and
`TASKLET_WAIT` and the jump of `TASKLET_BEGIN` - uses the cursor with
`cursor < capacity`: the semantics that checks this agrees with the unchecked one.  If
moreover the capacity plus the words of the locals of each function is at most `2^16`
(the cursor cannot wrap within a frame), then at each of these accesses made with
`_norecurse` clear the resume slot lies outside the words of the locals of the same
frame.  The invocation, if it returns, leaves the cursor, the capacity and the clear
transient flags as they were, so the same holds for the next `resume()`.  In a
re-entrant `resume()` (`_norecurse` set, `_fresh` clear) every proxy is bound to the
slot at the cursor, the resume slot. -/
theorem resume_point_within_capacity {U : Type} (W : Nat) (prog : Nat → Body U) (fuel : Nat)
    (t : Tasklet U) (hq : Quiet t) (hsp : t.sp < t.stack_size) :
    mainChecked W prog false fuel t = faultOf (Tasklet.main W prog fuel t) ∧
      ((∀ g, t.stack_size + totalWords W (prog g).vars ≤ 65536) →
        mainChecked W prog true fuel t = faultOf (Tasklet.main W prog fuel t)) ∧
      (∀ t', Tasklet.main W prog fuel t = .ok t' →
        Quiet t' ∧ t'.sp = t.sp ∧ t'.stack_size = t.stack_size) ∧
      (∀ (mem : Nat → Word) (bytes : Nat) (e : Bool) (u : U) (st : List Bool),
        1 ≤ (Tasklet.create W mem bytes e u st).stack_size →
        Quiet (Tasklet.create W mem bytes e u st) ∧
          (Tasklet.create W mem bytes e u st).sp <
            (Tasklet.create W mem bytes e u st).stack_size) ∧
      (∀ (tn : Tasklet U) (fn : Nat), tn.norecurse = true → tn.fresh = false →
        construct W fn (prog fn).vars 0 tn =
          .ok (List.replicate (prog fn).vars.length tn.sp, tn)) := by
  refine ⟨?_, ?_, ?_, ?_, ?_⟩
  · unfold mainChecked Tasklet.main
    exact invokeChecked_eq_of W prog false t.stack_size (fun h => by cases h)
      (run W prog fuel) (runChecked W prog false fuel)
      (runChecked_eq W prog false t.stack_size (fun h => by cases h) fuel) 0 t hq hsp rfl
  · intro hw
    unfold mainChecked Tasklet.main
    exact invokeChecked_eq_of W prog true t.stack_size (fun _ => hw)
      (run W prog fuel) (runChecked W prog true fuel)
      (runChecked_eq W prog true t.stack_size (fun _ => hw) fuel) 0 t hq hsp rfl
  · intro t' h
    obtain ⟨_, h2, h3⟩ := main_frame W prog fuel t t' h
    obtain ⟨h4, h5⟩ := h3 hq
    exact ⟨h5, h4, h2⟩
  · intro mem bytes e u st h
    exact ⟨⟨rfl, rfl, by simp [Tasklet.create]⟩, h⟩
  · intro tn fn hn hf
    exact construct_norecurse W fn _ 0 tn hn hf

/-- C20 (amended), for `WaitTasklet` with a starter that resumes synchronously, on a
scratch stack of 16 words. -/
theorem resume_point_within_capacity_witness :
    Quiet (Tasklet.create 8 (fun _ => Word.val 0) 128 false ((0 : Int), ([] : List (Int × Int)))
        [true]) ∧
      mainChecked 8 WaitTasklet true 40
          (Tasklet.create 8 (fun _ => Word.val 0) 128 false (0, []) [true]) =
        faultOf (Tasklet.main 8 WaitTasklet 40
          (Tasklet.create 8 (fun _ => Word.val 0) 128 false (0, []) [true])) :=
  ⟨⟨rfl, rfl, by decide⟩,
    (resume_point_within_capacity 8 WaitTasklet 40
      (Tasklet.create 8 (fun _ => Word.val 0) 128 false (0, []) [true])
      ⟨rfl, rfl, by decide⟩ (by decide)).2.1 (fun _ => Nat.le_of_ble_eq_true rfl)⟩

end Tasklets
